import Mathlib

/-
  Verification of the envmatic core against its specification.

  Shallow embedding of the TypeScript sources:
    - src/services/encryption.ts : encrypt / decrypt / getEncryptionKey (AES-256-GCM
      wrapping; the AEAD cipher and the PBKDF2 derivation are Node `crypto`
      primitives, modelled as parameters with their contracts as hypotheses)
    - src/services/envfile.ts    : createEnvFile / updateEnvFile / deleteEnvFile
      (manifest mutations)
    - src/services/git.ts        : pull / push / commitChanges / sync over an
      abstract state of the underlying git working tree
    - src/services/linker.ts     : createSymlink / createCopy / syncCopies / unlink
    - src/services/config.ts     : addLink / removeLink (link registry)

  JavaScript strings are modelled as `List Char`, byte buffers as `List Nat`
  with every element < 256.
-/

namespace Envmatic

/-- A JavaScript string, modelled as its character sequence. -/
abbrev Str := List Char

/-- A byte buffer: a list of naturals each below 256. -/
def IsBytes (l : List Nat) : Prop := ∀ x ∈ l, x < 256

instance : DecidablePred IsBytes := fun l =>
  inferInstanceAs (Decidable (∀ x ∈ l, x < 256))

/-! ## Base64 (Buffer.toString('base64') / Buffer.from(s, 'base64'))

`encrypt` returns `combined.toString('base64')` and `decrypt` starts from
`Buffer.from(encryptedData, 'base64')`.  The encoder models the canonical
(RFC 4648, padded) form Node produces.  Node's decoder never rejects: it
skips whitespace, padding and every non-alphabet character, then converts
the remaining six-bit groups to bytes, discarding leftover bits that do not
fill a byte — `b64decodeNode` models exactly that. -/

/-- The base64 alphabet, in index order. -/
def b64chars : List Char :=
  [ 'A','B','C','D','E','F','G','H','I','J','K','L','M','N','O','P','Q','R',
    'S','T','U','V','W','X','Y','Z','a','b','c','d','e','f','g','h','i','j',
    'k','l','m','n','o','p','q','r','s','t','u','v','w','x','y','z','0','1',
    '2','3','4','5','6','7','8','9','+','/' ]

/-- Character for a six-bit value. -/
def encC (i : Nat) : Char := b64chars.getD i 'A'

/-- Six-bit value of a base64 character, if any. -/
def decC (c : Char) : Option Nat :=
  let i := b64chars.indexOf c
  if i < 64 then some i else none

theorem decC_encC_all : ∀ i < 64, decC (encC i) = some i := by decide

theorem decC_encC {i : Nat} (h : i < 64) : decC (encC i) = some i :=
  decC_encC_all i h

/-- Base64-encode a byte list (canonical padded form). -/
def b64encode : List Nat → List Char
  | [] => []
  | [a] => [encC (a / 4), encC (a % 4 * 16), '=', '=']
  | [a, b] => [encC (a / 4), encC (a % 4 * 16 + b / 16), encC (b % 16 * 4), '=']
  | a :: b :: c :: rest =>
      encC (a / 4) :: encC (a % 4 * 16 + b / 16) ::
      encC (b % 16 * 4 + c / 64) :: encC (c % 64) :: b64encode rest

/-- Reassemble bytes from a six-bit-group stream: four groups make three
bytes; two or three leftover groups make one or two bytes; a single
leftover group (six bits, less than a byte) is discarded. -/
def sextetsToBytes : List Nat → List Nat
  | s1 :: s2 :: s3 :: s4 :: rest =>
      (s1 * 4 + s2 / 16) :: (s2 % 16 * 16 + s3 / 4) :: (s3 % 4 * 64 + s4) ::
        sextetsToBytes rest
  | [s1, s2] => [s1 * 4 + s2 / 16]
  | [s1, s2, s3] => [s1 * 4 + s2 / 16, s2 % 16 * 16 + s3 / 4]
  | _ => []

/-- Node's forgiving base64 decoder (`Buffer.from(s, 'base64')`): it never
fails — every character outside the 64-letter alphabet (whitespace, `'='`
padding, junk) is skipped, and the surviving six-bit groups are packed into
bytes. -/
def b64decodeNode (s : List Char) : List Nat :=
  sextetsToBytes (s.filterMap decC)

theorem decC_eq : decC '=' = none := by decide

theorem b64chars_length : b64chars.length = 64 := by decide

theorem encC_decC {c : Char} {i : Nat} (h : decC c = some i) :
    encC i = c ∧ i < 64 := by
  unfold decC at h
  by_cases h64 : b64chars.indexOf c < 64
  · simp only [h64, if_pos, Option.some.injEq] at h
    subst h
    refine ⟨?_, h64⟩
    unfold encC
    rw [List.getD_eq_getElem b64chars 'A' (by rw [b64chars_length]; exact h64)]
    exact List.getElem_indexOf (by rw [b64chars_length]; exact h64)
  · simp [h64] at h

theorem decC_lt {c : Char} {i : Nat} (h : decC c = some i) : i < 64 :=
  (encC_decC h).2

/-- Every character the encoder emits is an alphabet character or `'='`. -/
theorem encC_mem (i : Nat) : encC i ∈ b64chars := by
  unfold encC
  by_cases hi : i < b64chars.length
  · rw [List.getD_eq_getElem b64chars 'A' hi]
    exact List.getElem_mem hi
  · rw [List.getD_eq_default]
    · decide
    · omega

theorem mem_b64encode {c : Char} {l : List Nat} (h : c ∈ b64encode l) :
    c ∈ b64chars ∨ c = '=' := by
  induction l using b64encode.induct with
  | case1 => simp [b64encode] at h
  | case2 a =>
    simp only [b64encode, List.mem_cons, List.not_mem_nil, or_false] at h
    rcases h with rfl | rfl | rfl | rfl
    · exact Or.inl (encC_mem _)
    · exact Or.inl (encC_mem _)
    · exact Or.inr rfl
    · exact Or.inr rfl
  | case3 a b =>
    simp only [b64encode, List.mem_cons, List.not_mem_nil, or_false] at h
    rcases h with rfl | rfl | rfl | rfl
    · exact Or.inl (encC_mem _)
    · exact Or.inl (encC_mem _)
    · exact Or.inl (encC_mem _)
    · exact Or.inr rfl
  | case4 a b c2 rest ih =>
    simp only [b64encode, List.mem_cons] at h
    rcases h with rfl | rfl | rfl | rfl | h
    · exact Or.inl (encC_mem _)
    · exact Or.inl (encC_mem _)
    · exact Or.inl (encC_mem _)
    · exact Or.inl (encC_mem _)
    · exact ih h

/-- The forgiving decoder inverts the canonical encoder on byte lists. -/
theorem b64decodeNode_b64encode {l : List Nat} (hl : IsBytes l) :
    b64decodeNode (b64encode l) = l := by
  induction l using b64encode.induct with
  | case1 =>
    simp [b64encode, b64decodeNode, sextetsToBytes]
  | case2 a =>
    have ha : a < 256 := hl a (by simp)
    have h1 : a / 4 < 64 := by omega
    have h2 : a % 4 * 16 < 64 := by omega
    simp only [b64encode, b64decodeNode, List.filterMap_cons, decC_encC h1,
      decC_encC h2, decC_eq, List.filterMap_nil]
    simp only [sextetsToBytes]
    congr 1
    omega
  | case3 a b =>
    have ha : a < 256 := hl a (by simp)
    have hb : b < 256 := hl b (by simp)
    have h1 : a / 4 < 64 := by omega
    have h2 : a % 4 * 16 + b / 16 < 64 := by omega
    have h3 : b % 16 * 4 < 64 := by omega
    simp only [b64encode, b64decodeNode, List.filterMap_cons, decC_encC h1,
      decC_encC h2, decC_encC h3, decC_eq, List.filterMap_nil]
    simp only [sextetsToBytes]
    congr 1
    · omega
    · congr 1
      omega
  | case4 a b c2 rest ih =>
    have ha : a < 256 := hl a (by simp)
    have hb : b < 256 := hl b (by simp)
    have hc : c2 < 256 := hl c2 (by simp)
    have hrest : IsBytes rest := fun x hx => hl x (by simp [hx])
    have h1 : a / 4 < 64 := by omega
    have h2 : a % 4 * 16 + b / 16 < 64 := by omega
    have h3 : b % 16 * 4 + c2 / 64 < 64 := by omega
    have h4 : c2 % 64 < 64 := by omega
    simp only [b64encode, b64decodeNode, List.filterMap_cons, decC_encC h1,
      decC_encC h2, decC_encC h3, decC_encC h4]
    simp only [sextetsToBytes]
    have ihx := ih hrest
    simp only [b64decodeNode] at ihx
    rw [ihx]
    congr 1
    · omega
    · congr 1
      · omega
      · congr 1
        omega

/-- six-bit groups pack into genuine bytes. -/
theorem sextetsToBytes_bytes {sx : List Nat} (h : ∀ x ∈ sx, x < 64) :
    IsBytes (sextetsToBytes sx) := by
  induction sx using sextetsToBytes.induct with
  | case1 s1 s2 s3 s4 rest ih =>
    have h1 : s1 < 64 := h s1 (by simp)
    have h2 : s2 < 64 := h s2 (by simp)
    have h3 : s3 < 64 := h s3 (by simp)
    have h4 : s4 < 64 := h s4 (by simp)
    have hrest : ∀ x ∈ rest, x < 64 := fun x hx => h x (by simp [hx])
    intro v hv
    simp only [sextetsToBytes, List.mem_cons] at hv
    rcases hv with rfl | rfl | rfl | hv
    · omega
    · omega
    · omega
    · exact ih hrest v hv
  | case2 s1 s2 =>
    have h1 : s1 < 64 := h s1 (by simp)
    have h2 : s2 < 64 := h s2 (by simp)
    intro v hv
    simp only [sextetsToBytes, List.mem_singleton] at hv
    omega
  | case3 s1 s2 s3 =>
    have h1 : s1 < 64 := h s1 (by simp)
    have h2 : s2 < 64 := h s2 (by simp)
    have h3 : s3 < 64 := h s3 (by simp)
    intro v hv
    simp only [sextetsToBytes, List.mem_cons, List.not_mem_nil, or_false] at hv
    rcases hv with rfl | rfl
    · omega
    · omega
  | case4 t h1 h2 h3 =>
    intro v hv
    simp [sextetsToBytes] at hv

theorem b64decodeNode_bytes (s : List Char) : IsBytes (b64decodeNode s) := by
  refine sextetsToBytes_bytes ?_
  intro x hx
  obtain ⟨c, -, hc⟩ := List.mem_filterMap.mp hx
  exact Nat.lt_of_lt_of_le (decC_lt hc) (by omega)

/-! ## CryptoEnvelope (src/services/encryption.ts)

`encrypt`/`decrypt` wrap two external Node `crypto` primitives:
  - PBKDF2 (100,000 iterations, SHA-512, 32-byte output), modelled as an
    abstract derivation function `kdf : Str → List Nat → List Nat`
    (input string, salt bytes ↦ key bytes);
  - AES-256-GCM, modelled as an abstract AEAD cipher: `enc key iv plaintext`
    returns the ciphertext and the 16-byte auth tag produced by
    `cipher.update/final` and `cipher.getAuthTag`, and `dec key iv tag ct`
    returns `some plaintext` or `none` for the decipher pipeline
    (`setAuthTag` + `update/final`), which throws on authentication failure.
Plaintexts are modelled as the UTF-8 byte sequences that
`cipher.update(data, 'utf8')` and `decrypted.toString('utf8')` convert
to and from. -/

/-- Abstract AEAD cipher (the Node `aes-256-gcm` primitive).
`enc key iv plaintext = (ciphertext, authTag)`;
`dec key iv authTag ciphertext = some plaintext` or `none` (throw). -/
structure AEAD where
  enc : List Nat → List Nat → List Nat → List Nat × List Nat
  dec : List Nat → List Nat → List Nat → List Nat → Option (List Nat)

/-- `EncryptionOptions` (src/types): method plus optional password / key path. -/
inductive EncMethod where
  | password
  | ssh
deriving DecidableEq

structure EncryptionOptions where
  method : EncMethod
  password : Option Str := none
  sshKeyPath : Option Str := none

/-- `getEncryptionKey` (encryption.ts): ssh branch first, then password,
otherwise throw (`none`).  `fsread` models `fs.readFile(sshKeyPath, 'utf-8')`
(`none` = unreadable), `salt` the persisted salt bytes from `getSalt()`. -/
def getEncryptionKey (kdf : Str → List Nat → List Nat) (fsread : Str → Option Str)
    (salt : List Nat) (options : EncryptionOptions) : Option (List Nat) :=
  match options.method, options.sshKeyPath, options.password with
  | .ssh, some keyPath, _ => (fsread keyPath).map (fun keyContent => kdf keyContent salt)
  | .password, _, some pw => some (kdf pw salt)
  | _, _, _ => none

/-- `encrypt` (encryption.ts): derive key, draw a fresh 16-byte `iv`
(passed explicitly here, since `crypto.randomBytes` is external), run the
cipher, and return `base64(iv ‖ authTag ‖ ciphertext)`. -/
def encrypt (aead : AEAD) (kdf : Str → List Nat → List Nat)
    (fsread : Str → Option Str) (salt : List Nat)
    (data : List Nat) (options : EncryptionOptions) (iv : List Nat) :
    Option Str :=
  (getEncryptionKey kdf fsread salt options).map (fun key =>
    let encrypted := (aead.enc key iv data).1
    let authTag := (aead.enc key iv data).2
    b64encode (iv ++ authTag ++ encrypted))

/-- `decrypt` (encryption.ts): derive key, base64-decode (Node's forgiving
decoder, which never fails), split the envelope as `iv = combined[0..16)`,
`authTag = combined[16..32)`, `encrypted = combined[32..)`, and run the
decipher. -/
def decrypt (aead : AEAD) (kdf : Str → List Nat → List Nat)
    (fsread : Str → Option Str) (salt : List Nat)
    (encryptedData : Str) (options : EncryptionOptions) : Option (List Nat) :=
  match getEncryptionKey kdf fsread salt options with
  | none => none
  | some key =>
    let combined := b64decodeNode encryptedData
    let iv := combined.take 16
    let authTag := (combined.drop 16).take 16
    let encrypted := combined.drop 32
    aead.dec key iv authTag encrypted

/-- Splitting a list at 16 and 32 recovers it. -/
theorem take_drop_split (l : List Nat) :
    l.take 16 ++ ((l.drop 16).take 16 ++ (l.drop 16).drop 16) = l := by
  rw [List.take_append_drop, List.take_append_drop]

/-- C1: for every plaintext `P` and valid encryption options `S` (the derived
key exists), decrypting the result of encrypting `P` under `S` with the same
`S` — and the same persisted salt — returns exactly `P`.  The AEAD primitive
is assumed to satisfy its decrypt-of-encrypt contract at the derived key and
to produce 16-byte auth tags and genuine bytes, as `aes-256-gcm` does. -/
theorem C1_open_seal_roundtrip
    (aead : AEAD) (kdf : Str → List Nat → List Nat) (fsread : Str → Option Str)
    (salt P iv key : List Nat) (S : EncryptionOptions) (E : Str)
    (hkey : getEncryptionKey kdf fsread salt S = some key)
    (hdec : ∀ iv pt,
      aead.dec key iv (aead.enc key iv pt).2 (aead.enc key iv pt).1 = some pt)
    (hivlen : iv.length = 16)
    (htaglen : ((aead.enc key iv P).2).length = 16)
    (hivB : IsBytes iv)
    (hctB : IsBytes (aead.enc key iv P).1)
    (htagB : IsBytes (aead.enc key iv P).2)
    (henc : encrypt aead kdf fsread salt P S iv = some E) :
    decrypt aead kdf fsread salt E S = some P := by
  unfold encrypt at henc
  rw [hkey] at henc
  simp only [Option.map_some, Option.map_some', Option.some.injEq] at henc
  subst henc
  unfold decrypt
  rw [hkey]
  have hbytes : IsBytes (iv ++ (aead.enc key iv P).2 ++ (aead.enc key iv P).1) := by
    intro v hv
    simp only [List.mem_append] at hv
    rcases hv with (hv | hv) | hv
    · exact hivB v hv
    · exact htagB v hv
    · exact hctB v hv
  have e1 : (iv ++ (aead.enc key iv P).2 ++ (aead.enc key iv P).1).take 16 = iv := by
    rw [List.append_assoc, ← hivlen, List.take_left]
  have edrop : (iv ++ (aead.enc key iv P).2 ++ (aead.enc key iv P).1).drop 16 =
      (aead.enc key iv P).2 ++ (aead.enc key iv P).1 := by
    rw [List.append_assoc, ← hivlen, List.drop_left]
  have e2 : ((iv ++ (aead.enc key iv P).2 ++ (aead.enc key iv P).1).drop 16).take 16 =
      (aead.enc key iv P).2 := by
    rw [edrop, ← htaglen, List.take_left]
  have e3 : (iv ++ (aead.enc key iv P).2 ++ (aead.enc key iv P).1).drop 32 =
      (aead.enc key iv P).1 := by
    have h32 : (32 : Nat) = 16 + 16 := by omega
    rw [h32, ← List.drop_drop, edrop, ← htaglen, List.drop_left]
  show aead.dec key
      ((b64decodeNode (b64encode
        (iv ++ (aead.enc key iv P).2 ++ (aead.enc key iv P).1))).take 16)
      (((b64decodeNode (b64encode
        (iv ++ (aead.enc key iv P).2 ++ (aead.enc key iv P).1))).drop 16).take 16)
      ((b64decodeNode (b64encode
        (iv ++ (aead.enc key iv P).2 ++ (aead.enc key iv P).1))).drop 32) = some P
  rw [b64decodeNode_b64encode hbytes, e1, e2, e3]
  exact hdec iv P

/-- C2 (amended): a successful `decrypt(E, S)` certifies that the bytes
Node's forgiving base64 decode extracts from `E` are exactly an authentic
output of `encrypt` of the very plaintext returned, under the key derived
from `S`: `E` decodes to the same bytes as some `encrypt(P, S, iv)` with a
16-byte IV (hence at least 32 bytes).  Contrapositive: whenever `E`'s
decoded bytes are not such an output — a flipped envelope byte, truncation
below 32 bytes, or a key other than the sealing one (assuming an envelope
never authenticates under two keys) — `decrypt` fails and never returns
altered or unauthenticated plaintext.  The guarantee is byte-level only:
base64 text decoding to the same bytes (added whitespace, junk characters,
altered padding) also decrypts, as the counterexample shows.  The AEAD
primitive is assumed authentic: its decipher succeeds only on exact cipher
outputs, as GCM tag checking enforces. -/
theorem C2_decrypt_byte_authentic
    (aead : AEAD) (kdf : Str → List Nat → List Nat) (fsread : Str → Option Str)
    (salt key : List Nat) (S : EncryptionOptions) (E : Str) (P : List Nat)
    (hkey : getEncryptionKey kdf fsread salt S = some key)
    (hauth : ∀ iv tag ct pt,
      aead.dec key iv tag ct = some pt → aead.enc key iv pt = (ct, tag))
    (htaglen : ∀ iv pt, ((aead.enc key iv pt).2).length = 16)
    (hok : decrypt aead kdf fsread salt E S = some P) :
    ∃ iv E0, iv.length = 16 ∧ IsBytes iv ∧
      encrypt aead kdf fsread salt P S iv = some E0 ∧
      b64decodeNode E0 = b64decodeNode E ∧
      32 ≤ (b64decodeNode E).length := by
  unfold decrypt at hok
  rw [hkey] at hok
  have hok2 : aead.dec key ((b64decodeNode E).take 16)
      (((b64decodeNode E).drop 16).take 16)
      ((b64decodeNode E).drop 32) = some P := hok
  have hbytes := b64decodeNode_bytes E
  have hpair := hauth _ _ _ _ hok2
  have htag : (((b64decodeNode E).drop 16).take 16).length = 16 := by
    have := htaglen ((b64decodeNode E).take 16) P
    rw [hpair] at this
    exact this
  have hlen : 32 ≤ (b64decodeNode E).length := by
    rw [List.length_take, List.length_drop] at htag
    omega
  refine ⟨(b64decodeNode E).take 16, b64encode (b64decodeNode E),
    ?_, ?_, ?_, ?_, hlen⟩
  · rw [List.length_take]
    omega
  · intro v hv
    exact hbytes v (List.take_subset 16 _ hv)
  · unfold encrypt
    rw [hkey]
    simp only [Option.map_some, Option.map_some', Option.some.injEq]
    rw [hpair]
    have hsplit : (b64decodeNode E).take 16 ++
        ((b64decodeNode E).drop 16).take 16 ++ (b64decodeNode E).drop 32 =
          b64decodeNode E := by
      have h32 : (32 : Nat) = 16 + 16 := by omega
      rw [h32, ← List.drop_drop, List.append_assoc]
      exact take_drop_split (b64decodeNode E)
    rw [hsplit]
  · rw [b64decodeNode_b64encode hbytes]

/-! ### A concrete AEAD/KDF instance used to witness the hypotheses -/

/-- A deterministic mixing function on byte lists. -/
def mixHash (l : List Nat) : Nat :=
  l.foldl (fun acc x => acc * 257 + x + 1) 7

/-- A 16-byte tag depending on key, IV and ciphertext. -/
def tag16 (key iv ct : List Nat) : List Nat :=
  (List.range 16).map (fun i => (mixHash (key ++ iv ++ ct) + 31 * i) % 256)

/-- A toy AEAD satisfying the contracts assumed of `aes-256-gcm`. -/
def toyAEAD : AEAD where
  enc := fun key iv pt => (pt, tag16 key iv pt)
  dec := fun key iv tag ct => if tag = tag16 key iv ct then some ct else none

/-- A toy key-derivation function standing in for PBKDF2. -/
def toyKdf (pw : Str) (salt : List Nat) : List Nat :=
  ((pw.map Char.toNat) ++ salt).map (fun x => x % 256)

theorem toyAEAD_dec_enc : ∀ key iv pt,
    toyAEAD.dec key iv (toyAEAD.enc key iv pt).2 (toyAEAD.enc key iv pt).1 =
      some pt := by
  intro key iv pt
  simp [toyAEAD]

theorem toyAEAD_authentic : ∀ key iv tag ct pt,
    toyAEAD.dec key iv tag ct = some pt → toyAEAD.enc key iv pt = (ct, tag) := by
  intro key iv tag ct pt h
  simp only [toyAEAD] at h ⊢
  by_cases htag : tag = tag16 key iv ct
  · rw [if_pos htag] at h
    simp only [Option.some.injEq] at h
    subst h
    rw [htag]
  · rw [if_neg htag] at h
    exact Option.noConfusion h

theorem toyAEAD_taglen : ∀ key iv pt,
    ((toyAEAD.enc key iv pt).2).length = 16 := by
  intro key iv pt
  simp [toyAEAD, tag16]

/-- Concrete witness inputs. -/
def optsW : EncryptionOptions := ⟨.password, some ['p', 'w'], none⟩

def saltW : List Nat := [1, 2, 3]

def keyW : List Nat := toyKdf ['p', 'w'] saltW

def ivW : List Nat := List.range 16

def ptW : List Nat := [80, 79, 82, 84]

def envelopeW : Str :=
  (encrypt toyAEAD toyKdf (fun _ => none) saltW ptW optsW ivW).getD []

/-- Witness for C1 at concrete inputs. -/
theorem C1_open_seal_roundtrip_witness :
    decrypt toyAEAD toyKdf (fun _ => none) saltW envelopeW optsW = some ptW :=
  C1_open_seal_roundtrip toyAEAD toyKdf (fun _ => none) saltW ptW ivW keyW
    optsW envelopeW (by decide)
    (fun iv pt => toyAEAD_dec_enc keyW iv pt)
    (by decide) (toyAEAD_taglen keyW ivW ptW) (by decide) (by decide) (by decide)
    (by decide)

/-- C2 counterexample: appending a newline to an authentic envelope gives a
string that is not an output of `encrypt` (the encoder emits only alphabet
characters and `'='`), yet `decrypt` still succeeds on it and returns the
plaintext, because Node's base64 decoder skips the newline — so `decrypt`
does not fail on every string that is not an authentic `encrypt` output. -/
theorem C2_counterexample_forgiving_base64 :
    decrypt toyAEAD toyKdf (fun _ => none) saltW
      (envelopeW ++ ['\n']) optsW = some ptW ∧
    ∀ (P iv : List Nat),
      encrypt toyAEAD toyKdf (fun _ => none) saltW P optsW iv ≠
        some (envelopeW ++ ['\n']) := by
  constructor
  · decide
  · intro P iv h
    unfold encrypt at h
    have hk : getEncryptionKey toyKdf (fun _ => none) saltW optsW =
        some keyW := rfl
    rw [hk] at h
    simp only [Option.map_some, Option.map_some', Option.some.injEq] at h
    have hmem : '\n' ∈ b64encode
        (iv ++ (toyAEAD.enc keyW iv P).2 ++ (toyAEAD.enc keyW iv P).1) := by
      rw [h]
      exact List.mem_append_right _ (by simp)
    rcases mem_b64encode hmem with hc | hc
    · exact absurd hc (by decide)
    · exact absurd hc (by decide)

/-- Witness for C2's amended theorem at concrete inputs. -/
theorem C2_decrypt_byte_authentic_witness :
    ∃ iv E0, iv.length = 16 ∧ IsBytes iv ∧
      encrypt toyAEAD toyKdf (fun _ => none) saltW ptW optsW iv = some E0 ∧
      b64decodeNode E0 = b64decodeNode envelopeW ∧
      32 ≤ (b64decodeNode envelopeW).length :=
  C2_decrypt_byte_authentic toyAEAD toyKdf (fun _ => none) saltW keyW optsW
    envelopeW ptW (by decide)
    (fun iv tag ct pt => toyAEAD_authentic keyW iv tag ct pt)
    (fun iv pt => toyAEAD_taglen keyW iv pt)
    (by decide)

/-! ## ManifestStore (src/services/envfile.ts)

The manifest-mutating parts of `createEnvFile`, `updateEnvFile` and
`deleteEnvFile`.  File-system writes and the git commit that follow each
mutation do not touch the manifest document and are modelled elsewhere. -/

/-- `EnvFile` metadata record (src/types). -/
structure EnvFile where
  id : Str
  name : Str
  project : Str
  environment : Str
  description : Option Str
  createdAt : Str
  updatedAt : Str
  encrypted : Bool
  immutable : Bool
deriving DecidableEq, Repr

/-- `EnvmaticManifest` (src/types). -/
structure EnvmaticManifest where
  version : Str
  files : List EnvFile
  projects : List Str
deriving DecidableEq, Repr

/-- The initial manifest written by `initRepository` / returned by
`getManifest` when none exists: `{version: '1.0.0', files: [], projects: []}`. -/
def emptyManifest : EnvmaticManifest :=
  ⟨['1', '.', '0', '.', '0'], [], []⟩

/-- `generateFileId(project, environment, name)` = `project/environment/name`. -/
def generateFileId (project environment name : Str) : Str :=
  project ++ '/' :: (environment ++ '/' :: name)

/-- Manifest part of `createEnvFile`: add the project if new, then
insert-or-replace the file record at its id (`findIndex` + assignment,
else push).  `encrypted` is `config.encryptionEnabled && !!encryptionOptions`
and `immutable` is `options.immutable ?? config.immutableByDefault`,
both passed here as resolved booleans; `now` is `new Date().toISOString()`. -/
def createEnvFile (manifest : EnvmaticManifest) (project environment name : Str)
    (description : Option Str) (encrypted immutable : Bool) (now : Str) :
    EnvmaticManifest :=
  let fileId := generateFileId project environment name
  let envFile : EnvFile :=
    ⟨fileId, name, project, environment, description, now, now, encrypted, immutable⟩
  let projects :=
    if project ∈ manifest.projects then manifest.projects
    else manifest.projects ++ [project]
  let files :=
    match manifest.files.findIdx? (fun f => f.id == fileId) with
    | some i => manifest.files.set i envFile
    | none => manifest.files ++ [envFile]
  { manifest with projects := projects, files := files }

/-- Manifest part of `updateEnvFile`: look up the record by id (`none` models
the thrown `Env file not found`), refresh its `updatedAt`, and write it back
at the same index. -/
def updateEnvFile (manifest : EnvmaticManifest) (fileId now : Str) :
    Option EnvmaticManifest :=
  match manifest.files.findIdx? (fun f => f.id == fileId) with
  | none => none
  | some i =>
    match manifest.files[i]? with
    | none => none
    | some metadata =>
      some { manifest with
        files := manifest.files.set i { metadata with updatedAt := now } }

/-- Manifest part of `deleteEnvFile`: drop the record, and drop its project
from `projects` when no file of that project remains.  When the id is unknown
the function throws before touching the manifest, leaving it unchanged. -/
def deleteEnvFile (manifest : EnvmaticManifest) (fileId : Str) : EnvmaticManifest :=
  match manifest.files.find? (fun f => f.id == fileId) with
  | none => manifest
  | some metadata =>
    let files := manifest.files.filter (fun f => !(f.id == fileId))
    let projectFiles := files.filter (fun f => f.project == metadata.project)
    let projects :=
      if projectFiles.isEmpty then
        manifest.projects.filter (fun p => !(p == metadata.project))
      else manifest.projects
    { manifest with files := files, projects := projects }

/-- C10: for an existing fileId, `updateEnvFile` changes only that record's
`updatedAt`: all its other fields, every other record (position by position),
the projects list and the manifest version are unchanged. -/
theorem C10_updateEnvFile_frame (m : EnvmaticManifest) (fileId now : Str)
    (i : Nat) (f : EnvFile)
    (hidx : m.files.findIdx? (fun g => g.id == fileId) = some i)
    (hget : m.files[i]? = some f) :
    ∃ m', updateEnvFile m fileId now = some m' ∧
      m'.version = m.version ∧
      m'.projects = m.projects ∧
      m'.files.length = m.files.length ∧
      (∀ j, j ≠ i → m'.files[j]? = m.files[j]?) ∧
      m'.files[i]? = some
        ⟨f.id, f.name, f.project, f.environment, f.description, f.createdAt,
         now, f.encrypted, f.immutable⟩ := by
  refine ⟨{ m with files := m.files.set i { f with updatedAt := now } }, ?_, rfl,
    rfl, by simp, ?_, ?_⟩
  · unfold updateEnvFile
    simp only [hidx, hget]
  · intro j hj
    simp only
    exact List.getElem?_set_ne (by omega)
  · have hi : i < m.files.length := by
      have := List.findIdx?_eq_some_iff_getElem.mp hidx
      exact this.1
    simp only [List.getElem?_set_self hi, Option.some.injEq]

/-- Witness for C10 at a concrete manifest. -/
theorem C10_updateEnvFile_frame_witness :
    ∃ m', updateEnvFile
        ⟨['1'],
         [⟨['a', '/', 'b', '/', 'c'], ['c'], ['a'], ['b'], none, ['t'], ['t'],
           false, false⟩],
         [['a']]⟩ (['a', '/', 'b', '/', 'c']) ['u'] = some m' ∧
      m'.version = ['1'] ∧
      m'.projects = [['a']] ∧
      m'.files.length = 1 ∧
      (∀ j, j ≠ 0 → m'.files[j]? =
        [(⟨['a', '/', 'b', '/', 'c'], ['c'], ['a'], ['b'], none, ['t'], ['t'],
           false, false⟩ : EnvFile)][j]?) ∧
      m'.files[0]? = some
        ⟨['a', '/', 'b', '/', 'c'], ['c'], ['a'], ['b'], none, ['t'], ['u'],
         false, false⟩ :=
  C10_updateEnvFile_frame
    ⟨['1'],
     [⟨['a', '/', 'b', '/', 'c'], ['c'], ['a'], ['b'], none, ['t'], ['t'],
       false, false⟩],
     [['a']]⟩ (['a', '/', 'b', '/', 'c']) ['u'] 0
    ⟨['a', '/', 'b', '/', 'c'], ['c'], ['a'], ['b'], none, ['t'], ['t'],
     false, false⟩ (by decide) (by decide)

/-! ### C3: the projects/files invariant under upsert/remove sequences -/

/-- One manifest operation: `createEnvFile` (upsert) or `deleteEnvFile`
(remove), with the arguments the source functions receive. -/
inductive ManifestOp where
  | create (project environment name : Str) (description : Option Str)
      (encrypted immutable : Bool) (now : Str)
  | delete (fileId : Str)

/-- Apply one operation to the persisted manifest. -/
def applyOp (m : EnvmaticManifest) : ManifestOp → EnvmaticManifest
  | .create p e n d enc imm now => createEnvFile m p e n d enc imm now
  | .delete fid => deleteEnvFile m fid

/-- Run a sequence of operations from a starting manifest. -/
def runOps (m : EnvmaticManifest) (ops : List ManifestOp) : EnvmaticManifest :=
  ops.foldl applyOp m

/-- The claimed invariant: `projects` is exactly the distinct set of
`files[*].project` — no duplicates, every file's project listed,
nothing else listed. -/
def ProjectsExact (m : EnvmaticManifest) : Prop :=
  m.projects.Nodup ∧
  (∀ q ∈ m.files.map (fun f => f.project), q ∈ m.projects) ∧
  (∀ q ∈ m.projects, q ∈ m.files.map (fun f => f.project))

instance (m : EnvmaticManifest) : Decidable (ProjectsExact m) := by
  unfold ProjectsExact
  infer_instance

/-- A create operation whose three id components are free of `'/'` (the id
separator); `deleteEnvFile` takes no components.  Slash-containing components
make distinct (project, environment, name) triples collide on one id. -/
def GoodOp : ManifestOp → Prop
  | .create p e n _ _ _ _ => ('/' ∉ p) ∧ ('/' ∉ e) ∧ ('/' ∉ n)
  | .delete _ => True

/-- Well-formedness carried through the induction: the claimed invariant,
distinct ids, and every record's id being the join of its own slash-free
components. -/
def ManifestWF (m : EnvmaticManifest) : Prop :=
  ProjectsExact m ∧
  (m.files.map (fun f => f.id)).Nodup ∧
  ∀ f ∈ m.files, ('/' ∉ f.project) ∧ ('/' ∉ f.environment) ∧ ('/' ∉ f.name) ∧
    f.id = generateFileId f.project f.environment f.name

theorem manifestWF_empty : ManifestWF emptyManifest := by
  refine ⟨⟨by simp [emptyManifest], ?_, ?_⟩, by simp [emptyManifest], ?_⟩ <;>
    simp [emptyManifest]

/-- Two slash-separated joins agree only componentwise (first split). -/
theorem append_slash_inj {a b x y : Str} (ha : '/' ∉ a) (hb : '/' ∉ b)
    (h : a ++ '/' :: x = b ++ '/' :: y) : a = b ∧ x = y := by
  induction a generalizing b with
  | nil =>
    cases b with
    | nil =>
      simp only [List.nil_append] at h
      exact ⟨rfl, by injection h⟩
    | cons c bs =>
      simp only [List.nil_append, List.cons_append, List.cons.injEq] at h
      exact absurd (h.1 ▸ List.mem_cons_self c bs) hb
  | cons c as ih =>
    cases b with
    | nil =>
      simp only [List.cons_append, List.nil_append, List.cons.injEq] at h
      exact absurd (h.1 ▸ List.mem_cons_self c as) ha
    | cons c2 bs =>
      simp only [List.cons_append, List.cons.injEq] at h
      obtain ⟨rfl, h2⟩ := h
      have ha2 : '/' ∉ as := fun hm => ha (List.mem_cons_of_mem _ hm)
      have hb2 : '/' ∉ bs := fun hm => hb (List.mem_cons_of_mem _ hm)
      obtain ⟨rfl, hxy⟩ := ih ha2 hb2 h2
      exact ⟨rfl, hxy⟩

/-- `generateFileId` is injective on slash-free components. -/
theorem generateFileId_inj {p e n p2 e2 n2 : Str}
    (hp : '/' ∉ p) (he : '/' ∉ e) (hp2 : '/' ∉ p2) (he2 : '/' ∉ e2)
    (h : generateFileId p e n = generateFileId p2 e2 n2) :
    p = p2 ∧ e = e2 ∧ n = n2 := by
  unfold generateFileId at h
  obtain ⟨rfl, h2⟩ := append_slash_inj hp hp2 h
  obtain ⟨rfl, rfl⟩ := append_slash_inj he he2 h2
  exact ⟨rfl, rfl, rfl⟩

/-- The two-operation sequence refuting the unrestricted claim: project
`a/b`, environment `c`, name `.env` collides with project `a`,
environment `b`, name `c/.env` on the id `a/b/c/.env`. -/
def collidingOps : List ManifestOp :=
  [ .create ['a', '/', 'b'] ['c'] ['.', 'e', 'n', 'v'] none false false ['t'],
    .create ['a'] ['b'] ['c', '/', '.', 'e', 'n', 'v'] none false false ['t'] ]

/-- Overwriting an index with the value it already holds is a no-op. -/
theorem set_eq_self_of_getElem? {α : Type} {l : List α} {i : Nat} {v : α}
    (hv : l[i]? = some v) : l.set i v = l := by
  induction l generalizing i with
  | nil => simp at hv
  | cons a t ih =>
    cases i with
    | zero =>
      simp only [List.getElem?_cons_zero, Option.some.injEq] at hv
      rw [hv]
      rfl
    | succ j =>
      simp only [List.getElem?_cons_succ] at hv
      simp only [List.set_cons_succ]
      rw [ih hv]

theorem manifestWF_createEnvFile (m : EnvmaticManifest) (p e n : Str)
    (d : Option Str) (enc imm : Bool) (now : Str)
    (hm : ManifestWF m) (hp : '/' ∉ p) (he : '/' ∉ e) (hn : '/' ∉ n) :
    ManifestWF (createEnvFile m p e n d enc imm now) := by
  obtain ⟨⟨hnd, hsub1, hsub2⟩, hids, hfields⟩ := hm
  unfold createEnvFile
  simp only
  cases hidx : m.files.findIdx? (fun f => f.id == generateFileId p e n) with
  | some i =>
    obtain ⟨hi, hpi, -⟩ := List.findIdx?_eq_some_iff_getElem.mp hidx
    have holdid : (m.files[i]).id = generateFileId p e n := by
      exact beq_iff_eq.mp hpi
    have holdmem : m.files[i] ∈ m.files := List.getElem_mem hi
    obtain ⟨hop, hoe, hon, hoid⟩ := hfields _ holdmem
    obtain ⟨hpp, hee, hnn⟩ :=
      generateFileId_inj hop hoe hp he (hoid.symm.trans holdid)
    have hpmem : p ∈ m.projects := by
      refine hsub1 p ?_
      rw [← hpp]
      exact List.mem_map_of_mem _ holdmem
    rw [if_pos hpmem]
    have hmapproj : (m.files.set i
        ⟨generateFileId p e n, n, p, e, d, now, now, enc, imm⟩).map
          (fun f => f.project) = m.files.map (fun f => f.project) := by
      rw [List.map_set]
      exact set_eq_self_of_getElem?
        (by rw [List.getElem?_map, List.getElem?_eq_getElem hi]; simp [hpp])
    have hmapid : (m.files.set i
        ⟨generateFileId p e n, n, p, e, d, now, now, enc, imm⟩).map
          (fun f => f.id) = m.files.map (fun f => f.id) := by
      rw [List.map_set]
      exact set_eq_self_of_getElem?
        (by rw [List.getElem?_map, List.getElem?_eq_getElem hi]; simp [holdid])
    refine ⟨⟨hnd, ?_, ?_⟩, ?_, ?_⟩
    · intro q hq
      rw [hmapproj] at hq
      exact hsub1 q hq
    · intro q hq
      rw [hmapproj]
      exact hsub2 q hq
    · rw [hmapid]
      exact hids
    · intro f hf
      rcases List.mem_or_eq_of_mem_set hf with hf | rfl
      · exact hfields f hf
      · exact ⟨hp, he, hn, rfl⟩
  | none =>
    have hnone := List.findIdx?_eq_none_iff.mp hidx
    have hidnotin : generateFileId p e n ∉ m.files.map (fun f => f.id) := by
      intro hmem
      obtain ⟨g, hg, hgid⟩ := List.mem_map.mp hmem
      have := hnone g hg
      rw [hgid] at this
      simp at this
    by_cases hpp : p ∈ m.projects
    · rw [if_pos hpp]
      refine ⟨⟨hnd, ?_, ?_⟩, ?_, ?_⟩
      · intro q hq
        rw [List.map_append] at hq
        rcases List.mem_append.mp hq with hq | hq
        · exact hsub1 q hq
        · simp only [List.map_cons, List.map_nil, List.mem_singleton] at hq
          rw [hq]
          exact hpp
      · intro q hq
        rw [List.map_append]
        exact List.mem_append_left _ (hsub2 q hq)
      · rw [List.map_append]
        refine List.Nodup.append hids (by simp) ?_
        intro a ha hb
        simp only [List.map_cons, List.map_nil, List.mem_singleton] at hb
        rw [hb] at ha
        exact hidnotin ha
      · intro f hf
        rcases List.mem_append.mp hf with hf | hf
        · exact hfields f hf
        · simp only [List.mem_singleton] at hf
          rw [hf]
          exact ⟨hp, he, hn, rfl⟩
    · rw [if_neg hpp]
      refine ⟨⟨?_, ?_, ?_⟩, ?_, ?_⟩
      · exact List.Nodup.append hnd (by simp)
          (by intro a ha hb; simp only [List.mem_singleton] at hb;
              rw [hb] at ha; exact hpp ha)
      · intro q hq
        rw [List.map_append] at hq
        rcases List.mem_append.mp hq with hq | hq
        · exact List.mem_append_left _ (hsub1 q hq)
        · simp only [List.map_cons, List.map_nil, List.mem_singleton] at hq
          rw [hq]
          exact List.mem_append_right _ (by simp)
      · intro q hq
        rw [List.map_append]
        rcases List.mem_append.mp hq with hq | hq
        · exact List.mem_append_left _ (hsub2 q hq)
        · simp only [List.mem_singleton] at hq
          rw [hq]
          exact List.mem_append_right _ (by simp)
      · rw [List.map_append]
        refine List.Nodup.append hids (by simp) ?_
        intro a ha hb
        simp only [List.map_cons, List.map_nil, List.mem_singleton] at hb
        rw [hb] at ha
        exact hidnotin ha
      · intro f hf
        rcases List.mem_append.mp hf with hf | hf
        · exact hfields f hf
        · simp only [List.mem_singleton] at hf
          rw [hf]
          exact ⟨hp, he, hn, rfl⟩

theorem manifestWF_deleteEnvFile (m : EnvmaticManifest) (fid : Str)
    (hm : ManifestWF m) : ManifestWF (deleteEnvFile m fid) := by
  obtain ⟨⟨hnd, hsub1, hsub2⟩, hids, hfields⟩ := hm
  unfold deleteEnvFile
  cases hfind : m.files.find? (fun f => f.id == fid) with
  | none => exact ⟨⟨hnd, hsub1, hsub2⟩, hids, hfields⟩
  | some md =>
    simp only
    have hmdmem : md ∈ m.files := List.mem_of_find?_eq_some hfind
    have hpmd := @List.find?_some EnvFile (fun f => f.id == fid) md m.files hfind
    have hmdid : md.id = fid := by
      simp only [beq_iff_eq] at hpmd
      exact hpmd
    have hinj := List.inj_on_of_nodup_map hids
    have huniq : ∀ g ∈ m.files, g.id = fid → g = md := by
      intro g hg hgid
      exact hinj hg hmdmem (by rw [hgid, hmdid])
    have hsurv : ∀ g ∈ m.files, g ≠ md →
        g ∈ m.files.filter (fun f => !(f.id == fid)) := by
      intro g hg hne
      refine List.mem_filter.mpr ⟨hg, ?_⟩
      simp only [Bool.not_eq_eq_eq_not, Bool.not_true, beq_eq_false_iff_ne, ne_eq]
      intro hgid
      exact hne (huniq g hg hgid)
    have hfilterids : ((m.files.filter (fun f => !(f.id == fid))).map
        (fun f => f.id)).Nodup :=
      List.Nodup.sublist (List.Sublist.map _ (List.filter_sublist _)) hids
    have hfilterfields : ∀ f ∈ m.files.filter (fun f => !(f.id == fid)),
        ('/' ∉ f.project) ∧ ('/' ∉ f.environment) ∧ ('/' ∉ f.name) ∧
          f.id = generateFileId f.project f.environment f.name := by
      intro f hf
      exact hfields f (List.mem_filter.mp hf).1
    by_cases hpe : ((m.files.filter (fun f => !(f.id == fid))).filter
        (fun f => f.project == md.project)).isEmpty
    · rw [if_pos hpe]
      refine ⟨⟨List.Nodup.filter _ hnd, ?_, ?_⟩, hfilterids, hfilterfields⟩
      · intro q hq
        obtain ⟨g, hg, hgq⟩ := List.mem_map.mp hq
        have hgmem : g ∈ m.files := (List.mem_filter.mp hg).1
        have hqproj : q ∈ m.projects :=
          hsub1 q (hgq ▸ List.mem_map_of_mem _ hgmem)
        refine List.mem_filter.mpr ⟨hqproj, ?_⟩
        simp only [Bool.not_eq_eq_eq_not, Bool.not_true, beq_eq_false_iff_ne, ne_eq]
        intro hqmd
        have : g ∈ (m.files.filter (fun f => !(f.id == fid))).filter
            (fun f => f.project == md.project) :=
          List.mem_filter.mpr ⟨hg, by rw [hgq, hqmd]; simp⟩
        rw [List.isEmpty_iff.mp hpe] at this
        simp at this
      · intro q hq
        have hqin : q ∈ m.projects := (List.mem_filter.mp hq).1
        have hqne : q ≠ md.project := by
          have := (List.mem_filter.mp hq).2
          simp only [Bool.not_eq_eq_eq_not, Bool.not_true,
            beq_eq_false_iff_ne, ne_eq] at this
          exact this
        obtain ⟨g, hg, hgq⟩ := List.mem_map.mp (hsub2 q hqin)
        have hgne : g ≠ md := by
          intro hgmd
          rw [hgmd] at hgq
          exact hqne hgq.symm
        exact List.mem_map.mpr ⟨g, hsurv g hg hgne, hgq⟩
    · rw [if_neg hpe]
      refine ⟨⟨hnd, ?_, ?_⟩, hfilterids, hfilterfields⟩
      · intro q hq
        obtain ⟨g, hg, hgq⟩ := List.mem_map.mp hq
        have hgmem : g ∈ m.files := (List.mem_filter.mp hg).1
        exact hsub1 q (hgq ▸ List.mem_map_of_mem _ hgmem)
      · intro q hq
        by_cases hqmd : q = md.project
        · have hne : (m.files.filter (fun f => !(f.id == fid))).filter
              (fun f => f.project == md.project) ≠ [] := by
            intro hnil
            rw [hnil] at hpe
            exact hpe rfl
          obtain ⟨g, hg⟩ := List.exists_mem_of_ne_nil _ hne
          have hgproj : g.project = md.project :=
            beq_iff_eq.mp (List.mem_filter.mp hg).2
          refine List.mem_map.mpr ⟨g, (List.mem_filter.mp hg).1, ?_⟩
          rw [hgproj, hqmd]
        · obtain ⟨g, hg, hgq⟩ := List.mem_map.mp (hsub2 q hq)
          have hgne : g ≠ md := by
            intro hgmd
            rw [hgmd] at hgq
            exact hqmd hgq.symm
          exact List.mem_map.mpr ⟨g, hsurv g hg hgne, hgq⟩

theorem manifestWF_applyOp (m : EnvmaticManifest) (op : ManifestOp)
    (hm : ManifestWF m) (hop : GoodOp op) : ManifestWF (applyOp m op) := by
  cases op with
  | create p e n d enc imm now =>
    exact manifestWF_createEnvFile m p e n d enc imm now hm hop.1 hop.2.1 hop.2.2
  | delete fid => exact manifestWF_deleteEnvFile m fid hm

theorem manifestWF_runOps (m : EnvmaticManifest) (ops : List ManifestOp)
    (hm : ManifestWF m) (hops : ∀ op ∈ ops, GoodOp op) :
    ManifestWF (runOps m ops) := by
  induction ops generalizing m with
  | nil => exact hm
  | cons op rest ih =>
    exact ih (applyOp m op)
      (manifestWF_applyOp m op hm (hops op (List.mem_cons_self op rest)))
      (fun o ho => hops o (List.mem_cons_of_mem op ho))

/-- C3 counterexample: from the empty manifest, two `createEnvFile` calls with
slash-containing components collide on the id `a/b/c/.env`; the second replaces
the first record but leaves the first project `a/b` listed, so `projects` is
no longer the distinct set of `files[*].project`. -/
theorem C3_counterexample_collision :
    ¬ ProjectsExact (runOps emptyManifest collidingOps) := by decide

/-- C3 (amended): after any sequence of `createEnvFile` (upsert) and
`deleteEnvFile` (remove) operations from the empty manifest whose create
components (project, environment, name) contain no `'/'` — so that distinct
component triples cannot collide on one path-shaped id — `projects` is exactly
the distinct set of `files[*].project`: duplicate-free, containing every
file's project and nothing else. -/
theorem C3_projects_exact (ops : List ManifestOp)
    (hops : ∀ op ∈ ops, GoodOp op) :
    ProjectsExact (runOps emptyManifest ops) :=
  (manifestWF_runOps emptyManifest ops manifestWF_empty hops).1

/-- Witness for C3 at a concrete operation sequence. -/
theorem C3_projects_exact_witness :
    ProjectsExact (runOps emptyManifest
      [ .create ['a'] ['d'] ['.', 'e'] none false false ['t'],
        .create ['b'] ['d'] ['.', 'e'] none true true ['t'],
        .create ['a'] ['d'] ['.', 'e'] none false true ['u'],
        .delete (['b'] ++ '/' :: (['d'] ++ '/' :: ['.', 'e'])) ]) :=
  C3_projects_exact
    [ .create ['a'] ['d'] ['.', 'e'] none false false ['t'],
      .create ['b'] ['d'] ['.', 'e'] none true true ['t'],
      .create ['a'] ['d'] ['.', 'e'] none false true ['u'],
      .delete (['b'] ++ '/' :: (['d'] ++ '/' :: ['.', 'e'])) ]
    (by intro op hop; fin_cases hop <;> simp [GoodOp])

/-! ## GitSyncAdapter (src/services/git.ts)

`pull`, `push`, `commitChanges` and `sync` delegate to simple-git.  The
underlying git working tree and remote are modelled as an abstract state
observed through the commands the service uses, with the standard semantics
of `git pull` / `git push` / `git add`+`commit` on it. -/

/-- Abstract state of the checkout: `dirty` = `status().files.length`
(uncommitted changes), `ahead`/`behind` = tracking-branch counts,
`hasUpstream` = an upstream is configured for the current branch,
`remoteOk` = the remote is reachable. -/
structure GitState where
  dirty : Nat
  ahead : Nat
  behind : Nat
  hasUpstream : Bool
  remoteOk : Bool
deriving DecidableEq, Repr

/-- Errors surfaced by the external git commands, keyed by the message
fragments git.ts inspects. -/
inductive GitErr where
  /-- message contains 'no tracking information' (pull without upstream) -/
  | noTracking
  /-- message contains 'no upstream' / 'has no upstream' (push without upstream) -/
  | noUpstream
  /-- any other failure: network, auth, non-fast-forward, merge conflict -/
  | remoteFailure
deriving DecidableEq, Repr

/-- `git.pull()`: fails with the no-tracking error when no upstream is
configured, fails when the remote is unreachable, otherwise merges the
remote branch. -/
def gitPull (s : GitState) : Except GitErr GitState :=
  if s.hasUpstream = false then .error .noTracking
  else if s.remoteOk = false then .error .remoteFailure
  else .ok { s with behind := 0 }

/-- `git.push()` with no arguments: fails when no upstream is recorded. -/
def gitPushPlain (s : GitState) : Except GitErr GitState :=
  if s.remoteOk = false then .error .remoteFailure
  else if s.hasUpstream = false then .error .noUpstream
  else .ok { s with ahead := 0 }

/-- `git.push(['-u', 'origin', …])`: pushes and records the upstream. -/
def gitPushSetUpstream (s : GitState) : Except GitErr GitState :=
  if s.remoteOk = false then .error .remoteFailure
  else .ok { s with ahead := 0, hasUpstream := true }

/-- `git.add('.')` followed by `git.commit(...)` on a dirty tree. -/
def gitAddCommit (s : GitState) : GitState :=
  { s with dirty := 0, ahead := s.ahead + 1 }

/-- `pull()` (git.ts lines 122-125): a bare delegation to `git.pull()` —
no error is absorbed here. -/
def pull (s : GitState) : Except GitErr GitState :=
  gitPull s

/-- `push()` (git.ts lines 130-147): try a plain push; on a missing-upstream
message retry with `-u origin <branch>`; rethrow anything else. -/
def push (s : GitState) : Except GitErr GitState :=
  match gitPushPlain s with
  | .ok s2 => .ok s2
  | .error e =>
    if e = .noUpstream then gitPushSetUpstream s else .error e

/-- `commitChanges(message)` (git.ts lines 152-163): stage everything and
commit only if the status lists changed files. -/
def commitChanges (s : GitState) : GitState :=
  if s.dirty = 0 then s else gitAddCommit s

structure SyncResult where
  pulled : Bool
  pushed : Bool
  committed : Bool
deriving DecidableEq, Repr

/-- First stage of `sync()`: commit when the pre-status lists files. -/
def syncCommitStage (s : GitState) : GitState × Bool :=
  if 0 < s.dirty then (gitAddCommit s, true) else (s, false)

/-- Second stage of `sync()`: `git.pull()`, absorbing exactly the
`no tracking information` failure as a skip. -/
def syncPullStage (s : GitState) : Except GitErr (GitState × Bool) :=
  match gitPull s with
  | .ok s2 => .ok (s2, true)
  | .error e => if e = .noTracking then .ok (s, false) else .error e

/-- Third stage of `sync()`: re-read the status and push (with `-u origin
HEAD`) only when ahead; a `has no upstream` failure triggers the same push
again, anything else propagates. -/
def syncPushStage (s : GitState) : Except GitErr (GitState × Bool) :=
  if 0 < s.ahead then
    match gitPushSetUpstream s with
    | .ok s2 => .ok (s2, true)
    | .error e =>
      if e = .noUpstream then
        match gitPushSetUpstream s with
        | .ok s2 => .ok (s2, true)
        | .error e2 => .error e2
      else .error e
  else .ok (s, false)

/-- `sync()` (git.ts lines 168-212). -/
def sync (s : GitState) : Except GitErr (GitState × SyncResult) :=
  match syncPullStage (syncCommitStage s).1 with
  | .error e => .error e
  | .ok (s2, pulled) =>
    match syncPushStage s2 with
    | .error e => .error e
    | .ok (s3, pushed) => .ok (s3, ⟨pulled, pushed, (syncCommitStage s).2⟩)

/-- C5: with no local changes (clean tree, nothing ahead) and no remote
changes (nothing behind), `sync()` returns `{committed: false, pushed:
false}` (pulling is a no-op merge); moreover, on every run, it commits iff
the working tree was dirty — so no empty commits — and pushes iff the branch
is ahead after the pull, and the returned record reports exactly what
happened. -/
theorem C5_sync_clean_reports (s : GitState)
    (hdirty : s.dirty = 0) (hbehind : s.behind = 0) (hahead : s.ahead = 0)
    (hup : s.hasUpstream = true) (hremote : s.remoteOk = true) :
    sync s = .ok (s, ⟨true, false, false⟩) ∧
    (∀ t : GitState, (syncCommitStage t).2 = true ↔ 0 < t.dirty) ∧
    (∀ t s2 pulled, syncPullStage t = .ok (s2, pulled) →
      ∀ s3 pushed, syncPushStage s2 = .ok (s3, pushed) →
        (pushed = true ↔ 0 < s2.ahead)) := by
  refine ⟨?_, ?_, ?_⟩
  · obtain ⟨d, a, b, u, r⟩ := s
    simp only at hdirty hbehind hahead hup hremote
    subst hdirty; subst hbehind; subst hahead; subst hup; subst hremote
    rfl
  · intro t
    unfold syncCommitStage
    by_cases ht : 0 < t.dirty
    · rw [if_pos ht]
      simpa using ht
    · rw [if_neg ht]
      simpa using ht
  · intro t s2 pulled hpl s3 pushed hps
    unfold syncPushStage at hps
    by_cases ha : 0 < s2.ahead
    · rw [if_pos ha] at hps
      constructor
      · intro _
        exact ha
      · intro _
        cases hgp : gitPushSetUpstream s2 with
        | ok s4 =>
          simp only [hgp, Except.ok.injEq, Prod.mk.injEq] at hps
          exact hps.2.symm
        | error e =>
          by_cases he : e = GitErr.noUpstream
          · simp [hgp, he] at hps
          · simp [hgp, he] at hps
    · rw [if_neg ha] at hps
      simp only [Except.ok.injEq, Prod.mk.injEq] at hps
      rw [← hps.2]
      simpa using ha

/-- Witness for C5 at the all-clean concrete state. -/
theorem C5_sync_clean_reports_witness :
    sync ⟨0, 0, 0, true, true⟩ =
      .ok (⟨0, 0, 0, true, true⟩, ⟨true, false, false⟩) :=
  (C5_sync_clean_reports ⟨0, 0, 0, true, true⟩ rfl rfl rfl rfl rfl).1

/-- C8 counterexample: on a brand-new repository with no upstream configured
(one local commit, reachable remote), the standalone `pull()` raises the
no-tracking failure instead of completing as a non-fatal skip. -/
theorem C8_counterexample_pull_raises :
    pull ⟨0, 1, 0, false, true⟩ = .error .noTracking := rfl

/-- C8 (amended): the standalone `pull()` propagates every underlying
failure, including the missing-upstream one; it is `sync()`'s pull step that
absorbs exactly the `no tracking information` failure as a non-fatal skip
(reported as `pulled: false`), while every other pull failure propagates
unmodified out of `sync()`. -/
theorem C8_pull_propagates_sync_absorbs :
    (∀ s : GitState, s.hasUpstream = false → pull s = .error .noTracking) ∧
    (∀ s : GitState, s.hasUpstream = false → s.remoteOk = true →
      ∃ s2 r, sync s = .ok (s2, r) ∧ r.pulled = false) ∧
    (∀ (s : GitState) (e : GitErr),
      gitPull (syncCommitStage s).1 = .error e → e ≠ .noTracking →
        sync s = .error e) := by
  refine ⟨?_, ?_, ?_⟩
  · intro s hs
    unfold pull gitPull
    rw [if_pos hs]
  · intro s hup hrem
    have hup1 : (syncCommitStage s).1.hasUpstream = false := by
      unfold syncCommitStage
      by_cases hd : 0 < s.dirty
      · rw [if_pos hd]
        exact hup
      · rw [if_neg hd]
        exact hup
    have hrem1 : (syncCommitStage s).1.remoteOk = true := by
      unfold syncCommitStage
      by_cases hd : 0 < s.dirty
      · rw [if_pos hd]
        exact hrem
      · rw [if_neg hd]
        exact hrem
    have hpull : syncPullStage (syncCommitStage s).1 =
        .ok ((syncCommitStage s).1, false) := by
      unfold syncPullStage gitPull
      rw [if_pos hup1]
      rfl
    have hpush : ∃ s3 pushed, syncPushStage (syncCommitStage s).1 =
        .ok (s3, pushed) := by
      unfold syncPushStage gitPushSetUpstream
      by_cases ha : 0 < (syncCommitStage s).1.ahead
      · rw [if_pos ha, hrem1]
        exact ⟨_, true, rfl⟩
      · rw [if_neg ha]
        exact ⟨_, false, rfl⟩
    obtain ⟨s3, pushed, hps⟩ := hpush
    unfold sync
    simp only [hpull, hps]
    exact ⟨s3, ⟨false, pushed, (syncCommitStage s).2⟩, rfl, rfl⟩
  · intro s e hpl hne
    have hstage : syncPullStage (syncCommitStage s).1 = .error e := by
      unfold syncPullStage
      simp [hpl, hne]
    unfold sync
    simp only [hstage]

/-- Witness for C8 at the brand-new-repository concrete state. -/
theorem C8_pull_propagates_sync_absorbs_witness :
    pull ⟨0, 1, 0, false, true⟩ = .error .noTracking ∧
    (∃ s2 r, sync ⟨0, 1, 0, false, true⟩ = .ok (s2, r) ∧ r.pulled = false) ∧
    sync ⟨0, 1, 0, true, false⟩ = .error .remoteFailure :=
  ⟨C8_pull_propagates_sync_absorbs.1 ⟨0, 1, 0, false, true⟩ rfl,
   C8_pull_propagates_sync_absorbs.2.1 ⟨0, 1, 0, false, true⟩ rfl rfl,
   C8_pull_propagates_sync_absorbs.2.2 ⟨0, 1, 0, true, false⟩ .remoteFailure
     rfl (by decide)⟩

/-! ## Filesystem model and LinkRegistry (src/services/linker.ts, config.ts)

The filesystem is an association list from absolute paths to objects
(regular file, directory, symlink).  `path.resolve` is modelled as the
identity on the already-absolute paths used throughout; `fs-extra`
operations carry their Node semantics: `writeFile` follows symlinks and
fails on directories, `remove` deletes the object at the path itself,
`symlink` fails if the target exists, `ensureDir` creates the directory
when missing. -/

inductive FsObj where
  | file (content : Str)
  | dir
  | symlink (target : Str)
deriving DecidableEq, Repr

abbrev FS := List (Str × FsObj)

def fsGet (fs : FS) (p : Str) : Option FsObj :=
  (fs.find? (fun e => e.1 == p)).map (fun e => e.2)

def fsSet (fs : FS) (p : Str) (o : FsObj) : FS :=
  fs.filter (fun e => !(e.1 == p)) ++ [(p, o)]

def fsRemove (fs : FS) (p : Str) : FS :=
  fs.filter (fun e => !(e.1 == p))

/-- Follow symlinks (fuelled; `none` = symlink loop, ELOOP). -/
def resolvePath (fs : FS) : Nat → Str → Option Str
  | 0, _ => none
  | fuel + 1, p =>
    match fsGet fs p with
    | some (.symlink q) => resolvePath fs fuel q
    | _ => some p

/-- `fs.pathExists` (follows symlinks; a dangling symlink reports false). -/
def pathExists (fs : FS) (p : Str) : Bool :=
  match resolvePath fs (fs.length + 1) p with
  | some q => (fsGet fs q).isSome
  | none => false

/-- `fs.ensureDir`: create the directory when nothing is at the path. -/
def ensureDir (fs : FS) (d : Str) : FS :=
  if (fsGet fs d).isSome then fs else fsSet fs d .dir

/-- `fs.writeFile`: resolve symlinks, fail on a directory (EISDIR) or a
symlink loop, otherwise create/overwrite the regular file at the resolved
path. -/
def writeFile (fs : FS) (p : Str) (c : Str) : Option FS :=
  match resolvePath fs (fs.length + 1) p with
  | none => none
  | some q =>
    match fsGet fs q with
    | some .dir => none
    | _ => some (fsSet fs q (.file c))

/-- `fs.symlink(src, target)`: fails with EEXIST when something is already
at the target path. -/
def symlinkFs (fs : FS) (src target : Str) : Option FS :=
  match fsGet fs target with
  | some _ => none
  | none => some (fsSet fs target (.symlink src))

/-- `path.dirname` (approximated on absolute slash-separated paths). -/
def dirname (p : Str) : Str :=
  if '/' ∈ p then ((p.reverse.dropWhile (fun c => !(c == '/'))).drop 1).reverse
  else ['.']

/-- `ENCRYPTED_EXT` -/
def encryptedExt : Str := ['.', 'e', 'n', 'c']

/-- `getEnvFilePath(fileId, encrypted)` = `path.join(VAULT_PATH, fileId + ext)`,
with the vault root passed explicitly. -/
def getEnvFilePath (vault : Str) (fileId : Str) (encrypted : Bool) : Str :=
  vault ++ '/' :: (fileId ++ if encrypted then encryptedExt else [])

inductive LinkType where
  | symlink
  | copy
deriving DecidableEq, Repr

/-- `LinkInfo` (src/types). -/
structure LinkInfo where
  sourceId : Str
  targetPath : Str
  type : LinkType
  autoSync : Bool
  createdAt : Str
deriving DecidableEq, Repr

abbrev Registry := List LinkInfo

/-- `addLink` (config.ts lines 394-402): drop any record at the same
targetPath, then push the new one. -/
def addLink (links : Registry) (link : LinkInfo) : Registry :=
  links.filter (fun l => !(l.targetPath == link.targetPath)) ++ [link]

/-- `removeLink` (config.ts lines 407-417): filter by targetPath; report
whether anything was removed (and only save when something was). -/
def removeLink (links : Registry) (targetPath : Str) : Registry × Bool :=
  let filtered := links.filter (fun l => !(l.targetPath == targetPath))
  if filtered.length = links.length then (links, false) else (filtered, true)

/-- `getLinksForEnvFile` (config.ts lines 422-425). -/
def getLinksForEnvFile (links : Registry) (sourceId : Str) : Registry :=
  links.filter (fun l => l.sourceId == sourceId)

/-- Linker errors (messages thrown by linker.ts). -/
inductive LinkErr where
  /-- `Env file not found: ...` (no manifest record) -/
  | notFoundMeta
  /-- `Source file not found: ...` (no vault file on disk) -/
  | notFoundSource
  /-- `Encryption options required for encrypted files` -/
  | encOptionsRequired
  /-- `Use "copy" mode for encrypted files. Symlinks cannot decrypt on-the-fly.` -/
  | useCopyMode
  /-- a failure propagated from `readEnvFile` -/
  | readFailed
  /-- a failure propagated from `fs.writeFile` / `fs.symlink` -/
  | writeFailed
deriving DecidableEq, Repr

/-- `unlink(targetPath)` (linker.ts lines 175-187): remove the registry
record (if any), then remove the filesystem object if one exists; return
whether a record had been registered. -/
def unlink (fs : FS) (links : Registry) (targetPath : Str) :
    FS × Registry × Bool :=
  let removed := removeLink links targetPath
  let fs2 := if pathExists fs targetPath then fsRemove fs targetPath else fs
  (fs2, removed.1, removed.2)

/-- C9: when an object exists at the (resolved) target path but no
LinkRecord is registered for it, `unlink` still deletes that unrelated
object and returns `false` (never linked); the registry is left unchanged. -/
theorem C9_unlink_deletes_unregistered (fs : FS) (links : Registry)
    (targetPath : Str)
    (hnolink : ∀ l ∈ links, l.targetPath ≠ targetPath)
    (hexists : pathExists fs targetPath = true) :
    unlink fs links targetPath = (fsRemove fs targetPath, links, false) := by
  have hfilter : links.filter (fun l => !(l.targetPath == targetPath)) = links := by
    apply List.filter_eq_self.mpr
    intro l hl
    simp only [Bool.not_eq_eq_eq_not, Bool.not_true, beq_eq_false_iff_ne, ne_eq,
      Bool.not_eq_false]
    exact hnolink l hl
  unfold unlink removeLink
  simp only [hfilter, if_pos rfl, hexists, if_pos]

/-- Witness for C9: a regular file at the target, an unrelated registry. -/
theorem C9_unlink_deletes_unregistered_witness :
    unlink [(['/', 'x'], .file ['k', '=', 'v'])]
      [⟨['i'], ['/', 'y'], .copy, false, ['t']⟩] ['/', 'x'] =
      (fsRemove [(['/', 'x'], .file ['k', '=', 'v'])] ['/', 'x'],
       [⟨['i'], ['/', 'y'], .copy, false, ['t']⟩], false) :=
  C9_unlink_deletes_unregistered [(['/', 'x'], .file ['k', '=', 'v'])]
    [⟨['i'], ['/', 'y'], .copy, false, ['t']⟩] ['/', 'x']
    (by decide) (by decide)

/-- `createSymlink` (linker.ts lines 32-108), state-passing: filesystem
mutations performed before a throw persist.  The steps, in source order:
manifest lookup, source-on-disk check, `ensureDir` on the target's parent,
removal of any existing object at the target, the encrypted-source
rejection, and only then the actual symlink plus registry record.
(The Windows EPERM re-wording changes only the message text.) -/
def createSymlink (vault : Str) (manifest : EnvmaticManifest) (fs : FS)
    (links : Registry) (sourceFileId targetPath : Str)
    (encryptionOptions : Option EncryptionOptions) (now : Str) :
    FS × Registry × Except LinkErr LinkInfo :=
  match manifest.files.find? (fun f => f.id == sourceFileId) with
  | none => (fs, links, .error .notFoundMeta)
  | some metadata =>
    let sourcePath := getEnvFilePath vault sourceFileId metadata.encrypted
    if pathExists fs sourcePath = false then
      (fs, links, .error .notFoundSource)
    else
      let targetDir := dirname targetPath
      let fs1 := ensureDir fs targetDir
      let fs2 :=
        if pathExists fs1 targetPath then fsRemove fs1 targetPath else fs1
      if metadata.encrypted then
        if encryptionOptions.isNone then (fs2, links, .error .encOptionsRequired)
        else (fs2, links, .error .useCopyMode)
      else
        match symlinkFs fs2 sourcePath targetPath with
        | none => (fs2, links, .error .writeFailed)
        | some fs3 =>
          let link : LinkInfo := ⟨sourceFileId, targetPath, .symlink, false, now⟩
          (fs3, addLink links link, .ok link)

instance {ε α : Type} [DecidableEq ε] [DecidableEq α] :
    DecidableEq (Except ε α) := fun a b =>
  match a, b with
  | .ok x, .ok y =>
    if h : x = y then .isTrue (by rw [h]) else .isFalse (by
      intro hc; injection hc; contradiction)
  | .error x, .error y =>
    if h : x = y then .isTrue (by rw [h]) else .isFalse (by
      intro hc; injection hc; contradiction)
  | .ok _, .error _ => .isFalse (by intro hc; exact Except.noConfusion hc)
  | .error _, .ok _ => .isFalse (by intro hc; exact Except.noConfusion hc)

/-- A one-record manifest whose file is encrypted, for the C4 scenario. -/
def manifestEncW : EnvmaticManifest :=
  ⟨['1'],
   [⟨['a'], ['a'], ['p'], ['d'], none, ['t'], ['t'], true, false⟩],
   [['p']]⟩

/-- Filesystem for the C4 scenario: the encrypted vault file exists and an
unrelated regular file sits at the target path. -/
def fsEncW : FS :=
  [ (['v', '/', 'a', '.', 'e', 'n', 'c'], .file ['s']),
    (['t', '/', 'x'], .file ['o', 'l', 'd']) ]

/-- C4 counterexample: `createSymlink` on the encrypted record is indeed
rejected, but only after mutating the filesystem — the pre-existing object
at the target path has been removed (and the target's parent directory
created) by the time the error is thrown. -/
theorem C4_counterexample_mutation_before_reject :
    (createSymlink ['v'] manifestEncW fsEncW [] ['a'] ['t', '/', 'x']
        (some ⟨.password, some ['p', 'w'], none⟩) ['t']).2.2 =
      .error .useCopyMode ∧
    fsGet (createSymlink ['v'] manifestEncW fsEncW [] ['a'] ['t', '/', 'x']
        (some ⟨.password, some ['p', 'w'], none⟩) ['t']).1 ['t', '/', 'x'] =
      none ∧
    fsGet fsEncW ['t', '/', 'x'] = some (.file ['o', 'l', 'd']) := by
  refine ⟨?_, ?_, ?_⟩ <;> decide

/-- C4 (amended): `createSymlink` on an encrypted source FileRecord is always
rejected (`Encryption options required …` without options, `Use "copy" mode …`
with them) and registers no link — but the rejection happens only after two
filesystem mutations: the target's parent directory is ensured and any
pre-existing object at the target path is removed. -/
theorem C4_createSymlink_encrypted_rejected_after_mutation
    (vault : Str) (manifest : EnvmaticManifest) (fs : FS) (links : Registry)
    (src T : Str) (eo : Option EncryptionOptions) (now : Str) (md : EnvFile)
    (hmeta : manifest.files.find? (fun f => f.id == src) = some md)
    (henc : md.encrypted = true)
    (hsrc : pathExists fs (getEnvFilePath vault src true) = true) :
    createSymlink vault manifest fs links src T eo now =
      ((if pathExists (ensureDir fs (dirname T)) T
          then fsRemove (ensureDir fs (dirname T)) T
          else ensureDir fs (dirname T)),
       links,
       .error (if eo.isNone then .encOptionsRequired else .useCopyMode)) := by
  unfold createSymlink
  rw [hmeta]
  simp only [henc, hsrc]
  cases eo with
  | none => simp
  | some o => simp

/-- Witness for C4's amended theorem at the concrete scenario state. -/
theorem C4_createSymlink_encrypted_rejected_after_mutation_witness :
    createSymlink ['v'] manifestEncW fsEncW [] ['a'] ['t', '/', 'x'] none
        ['t'] =
      ((if pathExists (ensureDir fsEncW (dirname ['t', '/', 'x'])) ['t', '/', 'x']
          then fsRemove (ensureDir fsEncW (dirname ['t', '/', 'x'])) ['t', '/', 'x']
          else ensureDir fsEncW (dirname ['t', '/', 'x'])),
       [],
       .error (if (none : Option EncryptionOptions).isNone
          then .encOptionsRequired else .useCopyMode)) :=
  C4_createSymlink_encrypted_rejected_after_mutation ['v'] manifestEncW fsEncW
    [] ['a'] ['t', '/', 'x'] none ['t']
    ⟨['a'], ['a'], ['p'], ['d'], none, ['t'], ['t'], true, false⟩
    (by decide) (by decide) (by decide)

theorem fsGet_fsSet (fs : FS) (p : Str) (o : FsObj) (q : Str) :
    fsGet (fsSet fs p o) q = if q = p then some o else fsGet fs q := by
  unfold fsGet fsSet
  induction fs with
  | nil =>
    by_cases h : q = p
    · subst h
      simp [List.find?]
    · rw [if_neg h]
      have hpq : ((p, o).1 == q) = false := by
        simp only [beq_eq_false_iff_ne, ne_eq]
        exact fun hc => h hc.symm
      simp [List.find?, hpq]
  | cons e t ih =>
    rw [List.filter_cons]
    by_cases hep : (e.1 == p) = true
    · have : (!(e.1 == p)) = false := by rw [hep]; rfl
      rw [this]
      simp only [Bool.false_eq_true, if_false]
      rw [ih]
      by_cases h : q = p
      · rw [if_pos h, if_pos h]
      · rw [if_neg h, if_neg h]
        have heq : (e.1 == q) = false := by
          simp only [beq_eq_false_iff_ne, ne_eq]
          intro hc
          exact h (hc.symm.trans (beq_iff_eq.mp hep))
        rw [List.find?_cons_of_neg _ (by rw [heq]; exact Bool.false_ne_true)]
    · have : (!(e.1 == p)) = true := by
        simp only [Bool.not_eq_eq_eq_not, Bool.not_true]
        exact Bool.not_eq_true _ ▸ (by simpa using hep)
      rw [this]
      simp only [if_true, List.cons_append]
      by_cases heq : (e.1 == q) = true
      · rw [@List.find?_cons_of_pos _ (fun x => x.1 == q) e _ heq,
            @List.find?_cons_of_pos _ (fun x => x.1 == q) e _ heq]
        have hqp : ¬ q = p := by
          intro hc
          apply hep
          rw [beq_iff_eq, beq_iff_eq.mp heq, hc]
        rw [if_neg hqp]
      · rw [@List.find?_cons_of_neg _ (fun x => x.1 == q) e _ (by simpa using heq),
            @List.find?_cons_of_neg _ (fun x => x.1 == q) e _ (by simpa using heq)]
        exact ih

theorem fsGet_length_pos {fs : FS} {p : Str} {o : FsObj}
    (h : fsGet fs p = some o) : 0 < fs.length := by
  cases fs with
  | nil => simp [fsGet, List.find?] at h
  | cons e t => simp

/-- Resolving a path whose object is a symlink to a non-symlink lands on the
destination in two steps. -/
theorem resolvePath_symlink_step {fs : FS} {T q : Str} {n : Nat}
    (hT : fsGet fs T = some (.symlink q))
    (hq : ∀ r, fsGet fs q ≠ some (.symlink r)) :
    resolvePath fs (n + 2) T = some q := by
  show resolvePath fs (n + 1 + 1) T = some q
  unfold resolvePath
  rw [hT]
  show resolvePath fs (n + 1) q = some q
  unfold resolvePath
  cases hgq : fsGet fs q with
  | none => rfl
  | some o =>
    cases o with
    | file c => rfl
    | dir => rfl
    | symlink r => exact absurd hgq (hq r)

/-- Resolving a path holding a non-symlink (or nothing) is immediate. -/
theorem resolvePath_not_symlink {fs : FS} {T : Str} {n : Nat}
    (hT : ∀ r, fsGet fs T ≠ some (.symlink r)) :
    resolvePath fs (n + 1) T = some T := by
  unfold resolvePath
  cases hgq : fsGet fs T with
  | none => rfl
  | some o =>
    cases o with
    | file c => rfl
    | dir => rfl
    | symlink r => exact absurd hgq (hT r)

/-- `createCopy` (linker.ts lines 114-144), state-passing.  `readFn` stands
for `readEnvFile(sourceFileId, encryptionOptions)` followed by
`serializeEnvContent`: it reads the vault through the current filesystem and
produces the plaintext content to write, or fails.  Note the source performs
no removal of an existing object at the target: it writes straight through
whatever is there. -/
def createCopy (fs : FS) (links : Registry) (sourceFileId targetPath : Str)
    (readFn : FS → Option Str) (autoSync : Bool) (now : Str) :
    FS × Registry × Except LinkErr LinkInfo :=
  match readFn fs with
  | none => (fs, links, .error .readFailed)
  | some content =>
    let fs1 := ensureDir fs (dirname targetPath)
    match writeFile fs1 targetPath content with
    | none => (fs1, links, .error .writeFailed)
    | some fs2 =>
      let link : LinkInfo := ⟨sourceFileId, targetPath, .copy, autoSync, now⟩
      (fs2, addLink links link, .ok link)

/-- One LinkRegistry operation, with the arguments each linker entry point
receives. -/
inductive LinkOp where
  | dosymlink (vault : Str) (manifest : EnvmaticManifest) (src T : Str)
      (eo : Option EncryptionOptions) (now : Str)
  | docopy (src T : Str) (readFn : FS → Option Str) (autoSync : Bool) (now : Str)
  | dounlink (T : Str)

def applyLinkOp (st : FS × Registry) : LinkOp → FS × Registry
  | .dosymlink vault manifest src T eo now =>
    let r := createSymlink vault manifest st.1 st.2 src T eo now
    (r.1, r.2.1)
  | .docopy src T readFn autoSync now =>
    let r := createCopy st.1 st.2 src T readFn autoSync now
    (r.1, r.2.1)
  | .dounlink T =>
    let r := unlink st.1 st.2 T
    (r.1, r.2.1)

def runLinkOps (st : FS × Registry) (ops : List LinkOp) : FS × Registry :=
  ops.foldl applyLinkOp st

/-- At most one registry record per targetPath. -/
def TargetsNodup (links : Registry) : Prop :=
  (links.map (fun l => l.targetPath)).Nodup

theorem targetsNodup_addLink {links : Registry} (l : LinkInfo)
    (h : TargetsNodup links) : TargetsNodup (addLink links l) := by
  unfold TargetsNodup addLink
  rw [List.map_append]
  refine List.Nodup.append ?_ (by simp) ?_
  · exact List.Nodup.sublist (List.Sublist.map _ (List.filter_sublist _)) h
  · intro t ht ht2
    simp only [List.map_cons, List.map_nil, List.mem_singleton] at ht2
    obtain ⟨g, hg, hgt⟩ := List.mem_map.mp ht
    have := (List.mem_filter.mp hg).2
    rw [hgt, ht2] at this
    simp at this

theorem targetsNodup_removeLink {links : Registry} (T : Str)
    (h : TargetsNodup links) : TargetsNodup (removeLink links T).1 := by
  unfold removeLink
  by_cases hlen : (links.filter (fun l => !(l.targetPath == T))).length =
      links.length
  · rw [if_pos hlen]
    exact h
  · rw [if_neg hlen]
    exact List.Nodup.sublist (List.Sublist.map _ (List.filter_sublist _)) h

theorem createSymlink_registry (vault : Str) (manifest : EnvmaticManifest)
    (fs : FS) (links : Registry) (src T : Str) (eo : Option EncryptionOptions)
    (now : Str) :
    (createSymlink vault manifest fs links src T eo now).2.1 = links ∨
    ∃ l, (createSymlink vault manifest fs links src T eo now).2.1 =
      addLink links l := by
  unfold createSymlink
  split
  · exact Or.inl rfl
  · dsimp only
    split
    · exact Or.inl rfl
    · split
      · split
        · exact Or.inl rfl
        · exact Or.inl rfl
      · split
        · exact Or.inl rfl
        · exact Or.inr ⟨_, rfl⟩

theorem createCopy_registry (fs : FS) (links : Registry) (src T : Str)
    (readFn : FS → Option Str) (autoSync : Bool) (now : Str) :
    (createCopy fs links src T readFn autoSync now).2.1 = links ∨
    ∃ l, (createCopy fs links src T readFn autoSync now).2.1 =
      addLink links l := by
  unfold createCopy
  split
  · exact Or.inl rfl
  · dsimp only
    split
    · exact Or.inl rfl
    · exact Or.inr ⟨_, rfl⟩

theorem targetsNodup_applyLinkOp (st : FS × Registry) (op : LinkOp)
    (h : TargetsNodup st.2) : TargetsNodup (applyLinkOp st op).2 := by
  cases op with
  | dosymlink vault manifest src T eo now =>
    rcases createSymlink_registry vault manifest st.1 st.2 src T eo now with
      hr | ⟨l, hr⟩
    · simpa [applyLinkOp, hr] using h
    · simpa [applyLinkOp, hr] using targetsNodup_addLink l h
  | docopy src T readFn autoSync now =>
    rcases createCopy_registry st.1 st.2 src T readFn autoSync now with
      hr | ⟨l, hr⟩
    · simpa [applyLinkOp, hr] using h
    · simpa [applyLinkOp, hr] using targetsNodup_addLink l h
  | dounlink T =>
    simpa [applyLinkOp, unlink] using targetsNodup_removeLink T h

/-- C7 counterexample: `createCopy` at a target that currently holds a
symlink (with a prior record registered for it) succeeds, but the prior
filesystem object is not cleared: the symlink is still at the target
afterwards, and the content was written through it to the symlink's
destination. -/
theorem C7_counterexample_copy_keeps_prior_object :
    (createCopy
        [ (['/', 't'], .symlink ['/', 'd']), (['/', 'd'], .file ['o']) ]
        [⟨['i'], ['/', 't'], .symlink, false, ['t']⟩]
        ['i'] ['/', 't'] (fun _ => some ['n', 'e', 'w']) false ['u']).2.2 =
      .ok ⟨['i'], ['/', 't'], .copy, false, ['u']⟩ ∧
    fsGet (createCopy
        [ (['/', 't'], .symlink ['/', 'd']), (['/', 'd'], .file ['o']) ]
        [⟨['i'], ['/', 't'], .symlink, false, ['t']⟩]
        ['i'] ['/', 't'] (fun _ => some ['n', 'e', 'w']) false ['u']).1
      ['/', 't'] = some (.symlink ['/', 'd']) ∧
    fsGet (createCopy
        [ (['/', 't'], .symlink ['/', 'd']), (['/', 'd'], .file ['o']) ]
        [⟨['i'], ['/', 't'], .symlink, false, ['t']⟩]
        ['i'] ['/', 't'] (fun _ => some ['n', 'e', 'w']) false ['u']).1
      ['/', 'd'] = some (.file ['n', 'e', 'w']) := by
  refine ⟨?_, ?_, ?_⟩ <;> rfl

/-- C7 (amended): after any sequence of createSymlink/createCopy/unlink
operations from an empty registry, at most one LinkRecord exists per
targetPath, and every create first drops the prior record for that target
(`addLink` leaves exactly the new record there).  `createSymlink` also
removes the prior filesystem object before linking, but `createCopy` does
not: it writes through whatever is at the target (following a symlink), so a
prior symlink object survives the call. -/
theorem C7_registry_unique_per_target :
    (∀ (ops : List LinkOp) (fs0 : FS),
      TargetsNodup (runLinkOps (fs0, []) ops).2) ∧
    (∀ (links : Registry) (l : LinkInfo),
      (addLink links l).filter (fun x => x.targetPath == l.targetPath) = [l]) ∧
    (∀ (fs : FS) (links : Registry) (src T q : Str)
        (readFn : FS → Option Str) (autoSync : Bool) (now : Str) (c : Str),
      (∀ f, readFn f = some c) →
      fsGet fs T = some (.symlink q) →
      fsGet fs q = none ∨ (∃ c0, fsGet fs q = some (.file c0)) →
      fsGet (createCopy fs links src T readFn autoSync now).1 T =
        some (.symlink q)) := by
  refine ⟨?_, ?_, ?_⟩
  · intro ops fs0
    have : ∀ st : FS × Registry, TargetsNodup st.2 →
        TargetsNodup (runLinkOps st ops).2 := by
      induction ops with
      | nil => exact fun st h => h
      | cons op rest ih =>
        intro st h
        exact ih (applyLinkOp st op) (targetsNodup_applyLinkOp st op h)
    exact this (fs0, []) (by simp [TargetsNodup])
  · intro links l
    unfold addLink
    rw [List.filter_append]
    have h1 : (links.filter (fun x => !(x.targetPath == l.targetPath))).filter
        (fun x => x.targetPath == l.targetPath) = [] := by
      rw [List.filter_filter]
      apply List.filter_eq_nil_iff.mpr
      intro x hx
      simp
    rw [h1]
    simp
  · intro fs links src T q readFn autoSync now c hread hT hq
    have hTq : T ≠ q := by
      intro hc
      rcases hq with h0 | ⟨c0, h0⟩
      · rw [hc] at hT; rw [hT] at h0; exact Option.noConfusion h0
      · rw [hc] at hT; rw [hT] at h0; simp at h0
    have hT1 : fsGet (ensureDir fs (dirname T)) T = some (.symlink q) := by
      unfold ensureDir
      by_cases hd : (fsGet fs (dirname T)).isSome
      · rw [if_pos hd]; exact hT
      · rw [if_neg hd, fsGet_fsSet]
        by_cases hTd : T = dirname T
        · exact absurd (by rw [← hTd, hT]; rfl) hd
        · rw [if_neg hTd]; exact hT
    have hq1 : fsGet (ensureDir fs (dirname T)) q = none ∨
        (∃ c0, fsGet (ensureDir fs (dirname T)) q = some (.file c0)) ∨
        fsGet (ensureDir fs (dirname T)) q = some .dir := by
      unfold ensureDir
      by_cases hd : (fsGet fs (dirname T)).isSome
      · rw [if_pos hd]
        rcases hq with h0 | h0
        · exact Or.inl h0
        · exact Or.inr (Or.inl h0)
      · rw [if_neg hd, fsGet_fsSet]
        by_cases hqd : q = dirname T
        · rw [if_pos hqd]
          exact Or.inr (Or.inr rfl)
        · rw [if_neg hqd]
          rcases hq with h0 | h0
          · exact Or.inl h0
          · exact Or.inr (Or.inl h0)
    have hnots : ∀ r, fsGet (ensureDir fs (dirname T)) q ≠ some (.symlink r) := by
      intro r hc
      rcases hq1 with h0 | ⟨c0, h0⟩ | h0 <;> rw [hc] at h0 <;> simp at h0
    obtain ⟨k, hk⟩ : ∃ k, (ensureDir fs (dirname T)).length = k + 1 := by
      have := fsGet_length_pos hT1
      exact ⟨(ensureDir fs (dirname T)).length - 1, by omega⟩
    have hres : resolvePath (ensureDir fs (dirname T))
        ((ensureDir fs (dirname T)).length + 1) T = some q := by
      rw [hk]
      exact resolvePath_symlink_step hT1 hnots
    unfold createCopy
    simp only [hread fs]
    unfold writeFile
    rcases hq1 with h0 | ⟨c0, h0⟩ | h0
    · simp only [hres, h0]
      rw [fsGet_fsSet, if_neg hTq]
      exact hT1
    · simp only [hres, h0]
      rw [fsGet_fsSet, if_neg hTq]
      exact hT1
    · simp only [hres, h0]
      exact hT1

/-- Witness for C7 at concrete registries and filesystems. -/
theorem C7_registry_unique_per_target_witness :
    TargetsNodup (runLinkOps
      ([(['/', 'x'], .file ['k'])], [])
      [ .docopy ['i'] ['/', 'y'] (fun _ => some ['k']) false ['t'],
        .dounlink ['/', 'y'] ]).2 ∧
    (addLink [⟨['i'], ['/', 'y'], .copy, false, ['t']⟩]
        ⟨['j'], ['/', 'y'], .symlink, false, ['u']⟩).filter
      (fun x => x.targetPath == ['/', 'y']) =
        [⟨['j'], ['/', 'y'], .symlink, false, ['u']⟩] ∧
    fsGet (createCopy
        [ (['/', 't'], .symlink ['/', 'd']), (['/', 'd'], .file ['o']) ]
        [⟨['i'], ['/', 't'], .symlink, false, ['t']⟩]
        ['i'] ['/', 't'] (fun _ => some ['n']) false ['u']).1
      ['/', 't'] = some (.symlink ['/', 'd']) :=
  ⟨C7_registry_unique_per_target.1
      [ .docopy ['i'] ['/', 'y'] (fun _ => some ['k']) false ['t'],
        .dounlink ['/', 'y'] ] [(['/', 'x'], .file ['k'])],
   C7_registry_unique_per_target.2.1 [⟨['i'], ['/', 'y'], .copy, false, ['t']⟩]
      ⟨['j'], ['/', 'y'], .symlink, false, ['u']⟩,
   C7_registry_unique_per_target.2.2
      [ (['/', 't'], .symlink ['/', 'd']), (['/', 'd'], .file ['o']) ]
      [⟨['i'], ['/', 't'], .symlink, false, ['t']⟩]
      ['i'] ['/', 't'] ['/', 'd'] (fun _ => some ['n']) false ['u'] ['n']
      (fun _ => rfl) (by decide)
      (Or.inr ⟨['o'], by decide⟩)⟩

/-! ### C6: syncCopies -/

/-- The target currently holds a regular file or nothing (a plain
`fs.writeFile` succeeds there). -/
def fileOrAbsentAt (fs : FS) (t : Str) : Bool :=
  match fsGet fs t with
  | none => true
  | some (.file _) => true
  | _ => false

/-- The target currently holds a directory (`fs.writeFile` throws EISDIR). -/
def dirAt (fs : FS) (t : Str) : Bool :=
  match fsGet fs t with
  | some .dir => true
  | _ => false

theorem writeFile_of_fileOrAbsent {fs : FS} {t c : Str}
    (h : fileOrAbsentAt fs t = true) :
    writeFile fs t c = some (fsSet fs t (.file c)) := by
  have hns : ∀ r, fsGet fs t ≠ some (.symlink r) := by
    intro r hc
    unfold fileOrAbsentAt at h
    rw [hc] at h
    simp at h
  unfold writeFile
  rw [resolvePath_not_symlink hns]
  unfold fileOrAbsentAt at h
  cases hg : fsGet fs t with
  | none => simp [hg]
  | some o =>
    cases o with
    | file c0 => simp [hg]
    | dir => rw [hg] at h; simp at h
    | symlink r => exact absurd hg (hns r)

theorem writeFile_of_dir {fs : FS} {t c : Str} (h : dirAt fs t = true) :
    writeFile fs t c = none := by
  have hd : fsGet fs t = some .dir := by
    unfold dirAt at h
    cases hg : fsGet fs t with
    | none => rw [hg] at h; simp at h
    | some o =>
      cases o with
      | file c0 => rw [hg] at h; simp at h
      | dir => rfl
      | symlink r => rw [hg] at h; simp at h
  have hns : ∀ r, fsGet fs t ≠ some (.symlink r) := by
    intro r hc
    rw [hd] at hc
    exact FsObj.noConfusion (Option.some.inj hc)
  unfold writeFile
  rw [resolvePath_not_symlink hns]
  simp [hd]

theorem fileOrAbsentAt_fsSet_file {fs : FS} {t0 t c : Str} (h : t ≠ t0) :
    fileOrAbsentAt (fsSet fs t0 (.file c)) t = fileOrAbsentAt fs t := by
  unfold fileOrAbsentAt
  rw [fsGet_fsSet, if_neg h]

theorem dirAt_fsSet_file {fs : FS} {t0 t c : Str} (h : t ≠ t0) :
    dirAt (fsSet fs t0 (.file c)) t = dirAt fs t := by
  unfold dirAt
  rw [fsGet_fsSet, if_neg h]

theorem countP_bool_split {α : Type} (p q : α → Bool) (l : List α)
    (h : ∀ a ∈ l, p a = !(q a)) : l.countP p + l.countP q = l.length := by
  induction l with
  | nil => simp
  | cons a t ih =>
    have ha := h a (by simp)
    have iht := ih (fun b hb => h b (by simp [hb]))
    rw [List.countP_cons, List.countP_cons, ha]
    by_cases hq : q a = true <;> simp [hq] <;> omega

/-- `syncCopies` (linker.ts lines 149-170): filter the registered links for
the source down to the copy-typed ones; for each, call
`readEnvFile(sourceFileId, encryptionOptions)` (inside the loop — once per
copy), serialize, and write the target; a per-item failure is logged and the
loop continues.  The model returns the final filesystem, the `synced`
counter the source returns, and additionally the number of `readEnvFile`
calls performed.  `readFn` stands for `readEnvFile` + `serializeEnvContent`
as in `createCopy`. -/
def syncCopiesLoop (readFn : FS → Option Str) :
    List LinkInfo → FS → Nat → Nat → FS × Nat × Nat
  | [], fs, synced, reads => (fs, synced, reads)
  | copy :: rest, fs, synced, reads =>
    match readFn fs with
    | none => syncCopiesLoop readFn rest fs synced (reads + 1)
    | some content =>
      match writeFile fs copy.targetPath content with
      | none => syncCopiesLoop readFn rest fs synced (reads + 1)
      | some fs2 => syncCopiesLoop readFn rest fs2 (synced + 1) (reads + 1)

def syncCopies (links : Registry) (sourceFileId : Str) (fs : FS)
    (readFn : FS → Option Str) : FS × Nat × Nat :=
  syncCopiesLoop readFn
    ((getLinksForEnvFile links sourceFileId).filter (fun l => l.type == .copy))
    fs 0 0

theorem syncCopiesLoop_spec (readFn : FS → Option Str) (content : Str)
    (hread : ∀ f, readFn f = some content) :
    ∀ (cs : List LinkInfo) (fs : FS) (synced reads : Nat),
      (∀ l ∈ cs,
        (dirAt fs l.targetPath || fileOrAbsentAt fs l.targetPath) = true) →
      (cs.map (fun l => l.targetPath)).Nodup →
      (syncCopiesLoop readFn cs fs synced reads).2.2 = reads + cs.length ∧
      (syncCopiesLoop readFn cs fs synced reads).2.1 =
        synced + cs.countP (fun l => fileOrAbsentAt fs l.targetPath) ∧
      (∀ l ∈ cs, fileOrAbsentAt fs l.targetPath = true →
        fsGet (syncCopiesLoop readFn cs fs synced reads).1 l.targetPath =
          some (.file content)) ∧
      (∀ p, p ∉ cs.map (fun l => l.targetPath) →
        fsGet (syncCopiesLoop readFn cs fs synced reads).1 p = fsGet fs p) := by
  intro cs
  induction cs with
  | nil =>
    intro fs synced reads htotal hnodup
    refine ⟨by simp [syncCopiesLoop], by simp [syncCopiesLoop], ?_, ?_⟩
    · intro l hl
      simp at hl
    · intro p hp
      simp [syncCopiesLoop]
  | cons l rest ih =>
    intro fs synced reads htotal hnodup
    have hheadnotin : l.targetPath ∉ rest.map (fun x => x.targetPath) := by
      have := hnodup
      simp only [List.map_cons, List.nodup_cons] at this
      exact this.1
    have hrestnodup : (rest.map (fun x => x.targetPath)).Nodup := by
      have := hnodup
      simp only [List.map_cons, List.nodup_cons] at this
      exact this.2
    by_cases hfa : fileOrAbsentAt fs l.targetPath = true
    · have hw := writeFile_of_fileOrAbsent (c := content) hfa
      have hloop : syncCopiesLoop readFn (l :: rest) fs synced reads =
          syncCopiesLoop readFn rest (fsSet fs l.targetPath (.file content))
            (synced + 1) (reads + 1) := by
        conv_lhs => rw [syncCopiesLoop]
        simp only [hread, hw]
      have hne : ∀ x ∈ rest, x.targetPath ≠ l.targetPath := by
        intro x hx hc
        exact hheadnotin (hc ▸ List.mem_map_of_mem _ hx)
      have htotal2 : ∀ x ∈ rest,
          (dirAt (fsSet fs l.targetPath (.file content)) x.targetPath ||
            fileOrAbsentAt (fsSet fs l.targetPath (.file content))
              x.targetPath) = true := by
        intro x hx
        rw [dirAt_fsSet_file (hne x hx), fileOrAbsentAt_fsSet_file (hne x hx)]
        exact htotal x (by simp [hx])
      obtain ⟨ihreads, ihsynced, ihcontent, ihframe⟩ :=
        ih (fsSet fs l.targetPath (.file content)) (synced + 1) (reads + 1)
          htotal2 hrestnodup
      have hcntcongr : rest.countP (fun x =>
          fileOrAbsentAt (fsSet fs l.targetPath (.file content)) x.targetPath) =
          rest.countP (fun x => fileOrAbsentAt fs x.targetPath) :=
        List.countP_congr (fun x hx => by
          rw [fileOrAbsentAt_fsSet_file (hne x hx)])
      refine ⟨?_, ?_, ?_, ?_⟩
      · rw [hloop, ihreads]
        simp only [List.length_cons]
        omega
      · rw [hloop, ihsynced, hcntcongr, List.countP_cons]
        simp [hfa]
        omega
      · intro x hx hxfa
        rcases List.mem_cons.mp hx with rfl | hx2
        · rw [hloop, ihframe x.targetPath hheadnotin, fsGet_fsSet, if_pos rfl]
        · rw [hloop]
          refine ihcontent x hx2 ?_
          rw [fileOrAbsentAt_fsSet_file (hne x hx2)]
          exact hxfa
      · intro p hp
        have hpl : p ≠ l.targetPath := by
          intro hc
          exact hp (by simp [hc])
        have hprest : p ∉ rest.map (fun x => x.targetPath) := by
          intro hc
          exact hp (by simp only [List.map_cons, List.mem_cons]; exact Or.inr hc)
        rw [hloop, ihframe p hprest, fsGet_fsSet, if_neg hpl]
    · have hdir : dirAt fs l.targetPath = true := by
        have := htotal l (by simp)
        rcases Bool.or_eq_true_iff.mp this with h0 | h0
        · exact h0
        · exact absurd h0 hfa
      have hw := writeFile_of_dir (c := content) hdir
      have hloop : syncCopiesLoop readFn (l :: rest) fs synced reads =
          syncCopiesLoop readFn rest fs synced (reads + 1) := by
        conv_lhs => rw [syncCopiesLoop]
        simp only [hread, hw]
      have htotal2 : ∀ x ∈ rest,
          (dirAt fs x.targetPath || fileOrAbsentAt fs x.targetPath) = true :=
        fun x hx => htotal x (by simp [hx])
      obtain ⟨ihreads, ihsynced, ihcontent, ihframe⟩ :=
        ih fs synced (reads + 1) htotal2 hrestnodup
      refine ⟨?_, ?_, ?_, ?_⟩
      · rw [hloop, ihreads]
        simp only [List.length_cons]
        omega
      · rw [hloop, ihsynced, List.countP_cons]
        simp [hfa]
      · intro x hx hxfa
        rcases List.mem_cons.mp hx with rfl | hx2
        · exact absurd hxfa hfa
        · rw [hloop]
          exact ihcontent x hx2 hxfa
      · intro p hp
        have hprest : p ∉ rest.map (fun x => x.targetPath) := by
          intro hc
          exact hp (by simp only [List.map_cons, List.mem_cons]; exact Or.inr hc)
        rw [hloop, ihframe p hprest]

theorem fileOrAbsent_of_dir {fs : FS} {t : Str} (h : dirAt fs t = true) :
    fileOrAbsentAt fs t = false := by
  unfold dirAt at h
  unfold fileOrAbsentAt
  cases hg : fsGet fs t with
  | none => rw [hg] at h; simp at h
  | some o =>
    cases o with
    | file c => rw [hg] at h; simp at h
    | dir => rfl
    | symlink r => rw [hg] at h

/-- Registry for the C6 counterexample: two registered copies of source `i`. -/
def regTwoCopies : Registry :=
  [ ⟨['i'], ['/', 'a'], .copy, false, ['t']⟩,
    ⟨['i'], ['/', 'b'], .copy, true, ['t']⟩ ]

/-- C6 counterexample: with two registered copies and every write
succeeding, `syncCopies` performs two `readEnvFile` calls — one per copy,
not exactly one as claimed. -/
theorem C6_counterexample_reread_per_copy :
    (syncCopies regTwoCopies ['i'] [] (fun _ => some ['k'])).2.2 = 2 ∧
    (syncCopies regTwoCopies ['i'] [] (fun _ => some ['k'])).2.2 ≠ 1 ∧
    (syncCopies regTwoCopies ['i'] [] (fun _ => some ['k'])).2.1 = 2 := by
  refine ⟨rfl, by decide, rfl⟩

/-- C6 (amended): `syncCopies(sourceId, secret?)` re-reads the source once
per registered copy (N reads for N copies, not once in total) and rewrites
every registered copy for that source; when exactly one of the N distinct
target paths is unwritable (a directory sits there) and the others are
plain-writable, the other N−1 targets are all rewritten with the source
content — a single target's failure never aborts the batch — and the
returned updatedCount is N−1. -/
theorem C6_syncCopies_partial_success
    (links : Registry) (srcId : Str) (fs : FS) (readFn : FS → Option Str)
    (content : Str) (cs : List LinkInfo)
    (hcs : cs =
      (getLinksForEnvFile links srcId).filter (fun l => l.type == .copy))
    (hread : ∀ f, readFn f = some content)
    (htotal : ∀ l ∈ cs,
      (dirAt fs l.targetPath || fileOrAbsentAt fs l.targetPath) = true)
    (hnodup : (cs.map (fun l => l.targetPath)).Nodup)
    (hone : cs.countP (fun l => dirAt fs l.targetPath) = 1) :
    (syncCopies links srcId fs readFn).2.2 = cs.length ∧
    (syncCopies links srcId fs readFn).2.1 = cs.length - 1 ∧
    (∀ l ∈ cs, fileOrAbsentAt fs l.targetPath = true →
      fsGet (syncCopies links srcId fs readFn).1 l.targetPath =
        some (.file content)) := by
  obtain ⟨h1, h2, h3, h4⟩ :=
    syncCopiesLoop_spec readFn content hread cs fs 0 0 htotal hnodup
  have hsync : syncCopies links srcId fs readFn =
      syncCopiesLoop readFn cs fs 0 0 := by
    rw [syncCopies, hcs]
  have hrel : ∀ l ∈ cs,
      fileOrAbsentAt fs l.targetPath = !(dirAt fs l.targetPath) := by
    intro l hl
    cases hd : dirAt fs l.targetPath
    · simp only [Bool.not_false]
      rcases Bool.or_eq_true_iff.mp (htotal l hl) with h0 | h0
      · rw [hd] at h0
        exact Bool.noConfusion h0
      · exact h0
    · simp only [Bool.not_true]
      exact fileOrAbsent_of_dir hd
  have hsplit := countP_bool_split (fun l => fileOrAbsentAt fs l.targetPath)
    (fun l => dirAt fs l.targetPath) cs hrel
  have hcnt : cs.countP (fun l => fileOrAbsentAt fs l.targetPath) =
      cs.length - 1 := by omega
  refine ⟨?_, ?_, ?_⟩
  · rw [hsync, h1]
    omega
  · rw [hsync, h2, hcnt]
    omega
  · intro l hl hfa
    rw [hsync]
    exact h3 l hl hfa

/-- Witness for C6: two copies, the second target is a directory; the first
is rewritten, one failure, updatedCount 1 = 2 − 1, two reads. -/
theorem C6_syncCopies_partial_success_witness :
    (syncCopies regTwoCopies ['i'] [(['/', 'b'], .dir)]
        (fun _ => some ['k'])).2.2 = regTwoCopies.length ∧
    (syncCopies regTwoCopies ['i'] [(['/', 'b'], .dir)]
        (fun _ => some ['k'])).2.1 = regTwoCopies.length - 1 ∧
    (∀ l ∈ regTwoCopies,
      fileOrAbsentAt [(['/', 'b'], .dir)] l.targetPath = true →
      fsGet (syncCopies regTwoCopies ['i'] [(['/', 'b'], .dir)]
          (fun _ => some ['k'])).1 l.targetPath = some (.file ['k'])) :=
  C6_syncCopies_partial_success regTwoCopies ['i'] [(['/', 'b'], .dir)]
    (fun _ => some ['k']) ['k'] regTwoCopies (by decide) (fun _ => rfl)
    (by decide) (by decide) (by decide)

end Envmatic
